import Mathlib

/-!
# llm-tools: the logging reverse proxy and the benchmark's length parser

Shallow embedding of `cmd/llm-proxy/proxy.go` (`main`'s startup validation and
Host rewriting, `handleRegularResponse`, `handleStreamingResponse`) and of
`get_length` from `cmd/llm-bench/main.go`.

Go strings and byte slices are lists of byte values (`Nat`, each below 256 in
any real input; no definition relies on that bound).  Go's `int` is the 64-bit
two's-complement integer, embedded as `Int` with explicit wrap-around.
-/

namespace LlmTools

/-- A Go `[]byte` / `string`. -/
abbrev Bytes := List Nat

/-- The bytes of an ASCII literal. -/
def str (s : String) : Bytes := s.toList.map Char.toNat

/-- Go `strings.HasPrefix`. -/
def hasPrefix : Bytes → Bytes → Bool
  | _, [] => true
  | [], _ :: _ => false
  | a :: s, b :: p => a == b && hasPrefix s p

/-- Go `strings.TrimPrefix`. -/
def trimPrefix (s p : Bytes) : Bytes :=
  if hasPrefix s p then s.drop p.length else s

/-! ## The streamed-frame decoder (loop body of the goroutine) -/

/-- One element of `result.Choices` in `handleStreamingResponse`:
`Delta.Content` and `Message.Content`. -/
structure Choice where
  delta : Bytes
  message : Bytes
deriving DecidableEq, Repr

/-- The condition of proxy.go line 164: the line is non-empty and starts with
`{` or with `data: {`. -/
def recognised (line : Bytes) : Bool :=
  decide (line.length > 0) && (line.head? == some 123 || hasPrefix line (str "data: \x7b"))

/-- The payload handed to `json.Unmarshal` (proxy.go lines 166-169): the line
itself, or the line without its first six bytes when it starts with `data: `. -/
def jsonLine (line : Bytes) : Bytes :=
  if hasPrefix line (str "data: ") then line.drop 6 else line

/-- What the loop body prints for one scanned line (proxy.go lines 164-192):
`some content` when `fmt.Printf("%s", content)` is reached, `none` when nothing
is printed.  `unmarshal` is `json.Unmarshal` into the anonymous result struct:
`none` when it returns an error, otherwise the decoded `Choices`. -/
def lineFragment (unmarshal : Bytes → Option (List Choice)) (line : Bytes) : Option Bytes :=
  if recognised line then
    match unmarshal (jsonLine line) with
    | some (c :: _) =>
      let content := if c.delta = [] then c.message else c.delta
      if content ≠ [] then some content else none
    | _ => none
  else none

/-! ## bufio.Scanner with the ScanLines split function -/

/-- Go `bufio.MaxScanTokenSize`. -/
def maxScanTokenSize : Nat := 64 * 1024

/-- Go `bufio`'s `startBufSize`. -/
def startBufSize : Nat := 4096

/-- The largest Go `int`. -/
def maxInt : Nat := 2 ^ 63 - 1

/-- Go `bytes.IndexByte`. -/
def indexByte : Bytes → Nat → Option Nat
  | [], _ => none
  | b :: bs, c => if b = c then some 0 else (indexByte bs c).map (· + 1)

/-- Go `bufio`'s `dropCR`: drop one trailing `\r`. -/
def dropCR (data : Bytes) : Bytes :=
  if data.getLast? = some 13 then data.dropLast else data

/-- Go `bufio.ScanLines`: the advance and the token (`none` for a nil token).
It never returns an error. -/
def scanLines (data : Bytes) (atEOF : Bool) : Nat × Option Bytes :=
  if atEOF && data.isEmpty then (0, none)
  else
    match indexByte data 10 with
    | some i => (i + 1, some (dropCR (data.take i)))
    | none => if atEOF then (data.length, some (dropCR data)) else (0, none)

/-- The sticky error of a `bufio.Scanner`. -/
inductive ScanErr where
  | eof
  | tooLong
deriving DecidableEq, Repr

/-- The fields of a `bufio.Scanner` that `Scan` uses: `data` is
`s.buf[s.start:s.end]` (so `s.end = start + data.length`), `bufLen` is
`len(s.buf)`. -/
structure Scanner where
  data : Bytes
  start : Nat
  bufLen : Nat
  err : Option ScanErr
deriving DecidableEq, Repr

/-- The upstream body as an `io.Reader`: the bytes not yet read, and a
schedule that fixes the chunking.  An entry `(want, eager)` makes the next
`Read` return at most `want` bytes (at least one), and `eager` makes a `Read`
that returns the last bytes report `io.EOF` in the same call.  After the
schedule is used up a `Read` fills the caller's buffer. -/
structure Upstream where
  rest : Bytes
  sched : List (Nat × Bool)
deriving DecidableEq, Repr

/-- One `Read(p)` with `len(p) = cap`: the bytes returned, whether `io.EOF`
is returned with them, and the reader afterwards. -/
def Upstream.read (u : Upstream) (cap : Nat) : Bytes × Bool × Upstream :=
  match u.rest with
  | [] => ([], true, u)
  | _ :: _ =>
    let want := (u.sched.head?.map Prod.fst).getD cap
    let eager := (u.sched.head?.map Prod.snd).getD false
    let n := min (max want 1) cap
    let rest1 := u.rest.drop n
    (u.rest.take n, eager && rest1.isEmpty, { rest := rest1, sched := u.sched.tail })

/-! ## handleStreamingResponse

`tee := io.TeeReader(body, pw)` writes every chunk the scanner reads from
`body` into the pipe, and `io.Copy(w, pr)` writes every chunk of the pipe to
the client; a pipe write returns only after the chunk has been consumed.  With
no client write error the client has therefore received exactly the bytes the
scanner has read so far.  When `Scan` returns false the goroutine closes `pw`,
`io.Copy` sees end-of-stream and the handler returns. -/

/-- The state of one `handleStreamingResponse` call: the upstream body, the
scanner, the bytes written to the client `w`, the bytes printed to standard
output, and whether the scan loop is still running. -/
structure Relay where
  up : Upstream
  sc : Scanner
  client : Bytes
  out : Bytes
  running : Bool
deriving DecidableEq, Repr

/-- The state when the scan loop is first entered: `bufio.NewScanner(tee)`
has an empty buffer, and `fmt.Printf("- - -\n")` has run. -/
def Relay.init (body : Bytes) (sched : List (Nat × Bool)) : Relay :=
  { up := { rest := body, sched := sched },
    sc := { data := [], start := 0, bufLen := 0, err := none },
    client := [],
    out := str "- - -\n",
    running := true }

/-- The exit of the scan loop: `fmt.Print("\n\n")`, then `pw.Close()`.
(The `log.Printf` of a scanner error writes to the logger, not to standard
output.) -/
def Relay.finish (r : Relay) (sc : Scanner) : Relay :=
  { r with sc := sc, out := r.out ++ str "\n\n", running := false }

/-- The read at the bottom of `Scanner.Scan`'s loop, through the tee: the
chunk is appended to the buffer and written to the client; `io.EOF` becomes
the scanner's sticky error. -/
def Relay.fill (r : Relay) (sc : Scanner) : Relay :=
  let res := r.up.read (sc.bufLen - (sc.start + sc.data.length))
  { r with
    up := res.2.2,
    sc := { sc with data := sc.data ++ res.1, err := if res.2.1 then some ScanErr.eof else sc.err },
    client := r.client ++ res.1 }

/-- The top of the loop in `Scanner.Scan`: when the buffer holds data or the
sticky error is set, the split function is called on the buffered data, with
`atEOF` true exactly when the error is set. -/
def Scanner.token (s : Scanner) : Nat × Option Bytes :=
  if decide (s.data.length > 0) || s.err.isSome then scanLines s.data s.err.isSome
  else (0, none)

/-- "Shift data to beginning of buffer if there's lots of empty space or
space is needed": `s.start > 0 && (s.end == len(s.buf) || s.start > len(s.buf)/2)`. -/
def Scanner.shift (s : Scanner) : Scanner :=
  if decide (s.start > 0) &&
      (decide (s.start + s.data.length = s.bufLen) || decide (s.start > s.bufLen / 2))
  then { s with start := 0 } else s

/-- The resize of a full buffer: twice the size (`startBufSize` for an empty
buffer), at most `maxTokenSize`. -/
def Scanner.grow (s : Scanner) : Scanner :=
  let newSize := if s.bufLen * 2 = 0 then startBufSize else s.bufLen * 2
  { s with start := 0, bufLen := min newSize maxScanTokenSize }

/-- One iteration of the loop inside `Scanner.Scan`, together with the body of
`for scanner.Scan() { ... }` when that iteration yields a token. -/
def Relay.step (unmarshal : Bytes → Option (List Choice)) (r : Relay) : Relay :=
  if !r.running then r
  else
    match r.sc.token with
    | (adv, some line) =>
      -- Scan returns true; the loop body prints the fragment of this line
      { r with
        sc := { r.sc with data := r.sc.data.drop adv, start := r.sc.start + adv },
        out := r.out ++ (lineFragment unmarshal line).getD [] }
    | (_, none) =>
      if r.sc.err.isSome then
        -- already at EOF: shut down, Scan returns false
        r.finish { r.sc with data := [], start := 0 }
      else if r.sc.shift.start + r.sc.shift.data.length = r.sc.shift.bufLen then
        -- the buffer is full: give up with ErrTooLong, or resize and read
        if r.sc.shift.bufLen ≥ maxScanTokenSize ∨ r.sc.shift.bufLen > maxInt / 2 then
          r.finish { r.sc.shift with err := some ScanErr.tooLong }
        else r.fill r.sc.shift.grow
      else r.fill r.sc.shift

/-- The relay after `n` loop iterations. -/
def Relay.run (unmarshal : Bytes → Option (List Choice)) : Nat → Relay → Relay
  | 0, r => r
  | n + 1, r => Relay.run unmarshal n (r.step unmarshal)

/-- The state in which `handleStreamingResponse` returns, for the upstream
body `body` delivered with the chunking `sched`.  The iteration bound
`2 * body.length + 3` is never the reason the loop stops
(`handle_stopped`). -/
def handleStreamingResponse (unmarshal : Bytes → Option (List Choice))
    (body : Bytes) (sched : List (Nat × Bool)) : Relay :=
  Relay.run unmarshal (2 * body.length + 3) (Relay.init body sched)

/-! ## encoding/json, as far as `json.Unmarshal` into the two result structs

`json.Unmarshal` first checks that the whole input is one JSON value
surrounded by optional white space, then decodes it into the target.  The
target types of the proxy are structs of structs, a slice and strings, so
the decoder below is specialised to them. -/

/-- A parsed JSON value.  Numbers carry no payload: every field of the
targets is a string, a struct or a slice, where a number is a type error. -/
inductive JVal where
  | null
  | bool (b : Bool)
  | num
  | str (s : Bytes)
  | arr (xs : List JVal)
  | obj (kvs : List (Bytes × JVal))

/-- JSON white space: space, tab, CR, LF. -/
def isSpace (c : Nat) : Bool := c == 32 || c == 9 || c == 13 || c == 10

/-- Skip JSON white space. -/
def skipSpace : Bytes → Bytes
  | [] => []
  | c :: cs => if isSpace c then skipSpace cs else c :: cs

/-- A decimal digit. -/
def isDigit (c : Nat) : Bool := decide (48 ≤ c) && decide (c ≤ 57)

/-- Skip decimal digits. -/
def dropDigits : Bytes → Bytes
  | [] => []
  | c :: cs => if isDigit c then dropDigits cs else c :: cs

/-- The exponent part of a JSON number, if any; returns the rest. -/
def parseExp : Bytes → Option Bytes
  | [] => some []
  | e :: r =>
    if e = 101 ∨ e = 69 then
      let r2 := match r with
        | 43 :: x => x
        | 45 :: x => x
        | _ => r
      match r2 with
      | d :: r3 => if isDigit d then some (dropDigits r3) else none
      | [] => none
    else some (e :: r)

/-- The fraction and exponent parts of a JSON number, if any. -/
def parseFrac : Bytes → Option Bytes
  | 46 :: d :: r => if isDigit d then parseExp (dropDigits r) else none
  | 46 :: [] => none
  | r => parseExp r

/-- A JSON number: `-? (0 | [1-9][0-9]*) (. [0-9]+)? ([eE] [+-]? [0-9]+)?`;
returns the rest of the input. -/
def parseNumber (inp : Bytes) : Option Bytes :=
  let s1 := match inp with
    | 45 :: r => r
    | _ => inp
  match s1 with
  | [] => none
  | c :: r =>
    if c = 48 then parseFrac r
    else if decide (49 ≤ c) && decide (c ≤ 57) then parseFrac (dropDigits r)
    else none

/-- The value of a hexadecimal digit. -/
def hexVal (c : Nat) : Option Nat :=
  if 48 ≤ c ∧ c ≤ 57 then some (c - 48)
  else if 97 ≤ c ∧ c ≤ 102 then some (c - 87)
  else if 65 ≤ c ∧ c ≤ 70 then some (c - 55)
  else none

/-- Four hexadecimal digits as a number. -/
def hex4 (a b c d : Nat) : Option Nat :=
  match hexVal a, hexVal b, hexVal c, hexVal d with
  | some x, some y, some z, some w => some (((x * 16 + y) * 16 + z) * 16 + w)
  | _, _, _, _ => none

/-- Go `utf8.EncodeRune` for a code point that is not a surrogate and at
most U+10FFFF. -/
def encodeRune (r : Nat) : Bytes :=
  if r < 128 then [r]
  else if r < 2048 then [192 + r / 64, 128 + r % 64]
  else if r < 65536 then [224 + r / 4096, 128 + r / 64 % 64, 128 + r % 64]
  else [240 + r / 262144, 128 + r / 4096 % 64, 128 + r / 64 % 64, 128 + r % 64]

/-- The UTF-8 encoding of U+FFFD, the replacement character. -/
def replacementChar : Bytes := [239, 191, 189]

/-- A UTF-8 continuation byte. -/
def isCont (c : Nat) : Bool := decide (128 ≤ c) && decide (c ≤ 191)

/-- For a lead byte `c0 ≥ 0x80` followed by `rest`: the number of
continuation bytes of the well-formed UTF-8 sequence that starts here, or
`none` when `utf8.DecodeRune` reports an invalid encoding. -/
def utf8Tail (c0 : Nat) (rest : Bytes) : Option Nat :=
  let lo2 : Nat := if c0 = 224 then 160 else if c0 = 240 then 144 else 128
  let hi2 : Nat := if c0 = 237 then 159 else if c0 = 244 then 143 else 191
  let n : Nat :=
    if 194 ≤ c0 ∧ c0 ≤ 223 then 1
    else if 224 ≤ c0 ∧ c0 ≤ 239 then 2
    else if 240 ≤ c0 ∧ c0 ≤ 244 then 3
    else 0
  match n, rest with
  | 1, c1 :: _ => if lo2 ≤ c1 ∧ c1 ≤ hi2 then some 1 else none
  | 2, c1 :: c2 :: _ => if lo2 ≤ c1 ∧ c1 ≤ hi2 ∧ isCont c2 then some 2 else none
  | 3, c1 :: c2 :: c3 :: _ =>
    if lo2 ≤ c1 ∧ c1 ≤ hi2 ∧ isCont c2 ∧ isCont c3 then some 3 else none
  | _, _ => none

/-- The single-character escapes of a JSON string. -/
def unescape (e : Nat) : Option Nat :=
  if e = 34 ∨ e = 92 ∨ e = 47 then some e
  else if e = 98 then some 8
  else if e = 102 then some 12
  else if e = 110 then some 10
  else if e = 114 then some 13
  else if e = 116 then some 9
  else none

/-- The body of a JSON string literal after its opening quote, checked and
unquoted in one pass as `encoding/json` does: the decoded bytes and the input
after the closing quote.  `pending` counts continuation bytes of a
well-formed UTF-8 sequence still to be copied.  Control bytes and unknown
escapes are syntax errors; ill-formed UTF-8 and unpaired surrogate escapes
become U+FFFD.  The first argument bounds the number of steps; every step
consumes a byte, so the length of the input plus one is never exhausted. -/
def parseStrAux : Nat → Nat → Bytes → Option (Bytes × Bytes)
  | 0, _, _ => none
  | _ + 1, _, [] => none
  | f + 1, pending + 1, c :: cs => (parseStrAux f pending cs).map fun p => (c :: p.1, p.2)
  | f + 1, 0, c :: cs =>
    if c = 34 then some ([], cs)
    else if c = 92 then
      match cs with
      | [] => none
      | e :: rest =>
        if e = 117 then
          match rest with
          | h1 :: h2 :: h3 :: h4 :: rest1 =>
            match hex4 h1 h2 h3 h4 with
            | none => none
            | some rr =>
              if 55296 ≤ rr ∧ rr < 57344 then
                match rest1 with
                | b :: u :: g1 :: g2 :: g3 :: g4 :: rest2 =>
                  match (if b = 92 ∧ u = 117 then hex4 g1 g2 g3 g4 else none) with
                  | some rr1 =>
                    if rr < 56320 ∧ 56320 ≤ rr1 ∧ rr1 < 57344 then
                      (parseStrAux f 0 rest2).map fun p =>
                        (encodeRune ((rr - 55296) * 1024 + (rr1 - 56320) + 65536) ++ p.1, p.2)
                    else (parseStrAux f 0 rest1).map fun p => (replacementChar ++ p.1, p.2)
                  | none => (parseStrAux f 0 rest1).map fun p => (replacementChar ++ p.1, p.2)
                | _ => (parseStrAux f 0 rest1).map fun p => (replacementChar ++ p.1, p.2)
              else (parseStrAux f 0 rest1).map fun p => (encodeRune rr ++ p.1, p.2)
          | _ => none
        else
          match unescape e with
          | none => none
          | some b => (parseStrAux f 0 rest).map fun p => (b :: p.1, p.2)
    else if c < 32 then none
    else if c < 128 then (parseStrAux f 0 cs).map fun p => (c :: p.1, p.2)
    else
      match utf8Tail c cs with
      | none => (parseStrAux f 0 cs).map fun p => (replacementChar ++ p.1, p.2)
      | some n => (parseStrAux f n cs).map fun p => (c :: p.1, p.2)

/-- A JSON string literal after its opening quote. -/
def parseStr (inp : Bytes) : Option (Bytes × Bytes) :=
  parseStrAux (inp.length + 1) 0 inp

/-- Go `encoding/json`'s `maxNestingDepth`: arrays and objects nested more
deeply are a syntax error. -/
def maxNestingDepth : Nat := 10000

mutual
/-- One JSON value after optional white space, and the rest of the input.
The first argument bounds the recursion, the second is the number of arrays
and objects that are open around the value. -/
def parseValue : Nat → Nat → Bytes → Option (JVal × Bytes)
  | 0, _, _ => none
  | n + 1, depth, inp =>
    match skipSpace inp with
    | [] => none
    | c :: r =>
      if c = 123 then
        if depth + 1 > maxNestingDepth then none
        else
          match skipSpace r with
          | 125 :: r1 => some (JVal.obj [], r1)
          | r1 => (parseMembers n (depth + 1) r1).map fun p => (JVal.obj p.1, p.2)
      else if c = 91 then
        if depth + 1 > maxNestingDepth then none
        else
          match skipSpace r with
          | 93 :: r1 => some (JVal.arr [], r1)
          | r1 => (parseElems n (depth + 1) r1).map fun p => (JVal.arr p.1, p.2)
      else if c = 34 then (parseStr r).map fun p => (JVal.str p.1, p.2)
      else if hasPrefix (c :: r) [116, 114, 117, 101] then some (JVal.bool true, r.drop 3)
      else if hasPrefix (c :: r) [102, 97, 108, 115, 101] then some (JVal.bool false, r.drop 4)
      else if hasPrefix (c :: r) [110, 117, 108, 108] then some (JVal.null, r.drop 3)
      else (parseNumber (c :: r)).map fun r1 => (JVal.num, r1)
/-- The elements of a non-empty array up to and including the closing `]`. -/
def parseElems : Nat → Nat → Bytes → Option (List JVal × Bytes)
  | 0, _, _ => none
  | n + 1, depth, inp =>
    match parseValue n depth inp with
    | none => none
    | some (v, r) =>
      match skipSpace r with
      | 44 :: r1 => (parseElems n depth r1).map fun p => (v :: p.1, p.2)
      | 93 :: r1 => some ([v], r1)
      | _ => none
/-- The members of a non-empty object up to and including the closing `}`. -/
def parseMembers : Nat → Nat → Bytes → Option (List (Bytes × JVal) × Bytes)
  | 0, _, _ => none
  | n + 1, depth, inp =>
    match skipSpace inp with
    | 34 :: r =>
      match parseStr r with
      | none => none
      | some (k, r1) =>
        match skipSpace r1 with
        | 58 :: r2 =>
          match parseValue n depth r2 with
          | none => none
          | some (v, r3) =>
            match skipSpace r3 with
            | 44 :: r4 => (parseMembers n depth r4).map fun p => ((k, v) :: p.1, p.2)
            | 125 :: r4 => some ([(k, v)], r4)
            | _ => none
        | _ => none
    | _ => none
end

/-- The syntax check and parse of `json.Unmarshal`: exactly one JSON value,
with only white space after it.  A recursion bound of `2 * data.length + 2`
is never exhausted, because every second nested call has consumed a byte. -/
def parseJSON (data : Bytes) : Option JVal :=
  match parseValue (2 * data.length + 2) 0 data with
  | some (v, r) => if skipSpace r = [] then some v else none
  | none => none

/-- The case folding `encoding/json` applies to an object key before it is
compared with a field name: ASCII letters to upper case, and the two
non-ASCII letters whose simple case folding is ASCII, U+017F (long s) to `S`
and U+212A (Kelvin sign) to `K`.  Other non-ASCII bytes are kept; they never
equal a byte of an ASCII field name. -/
def foldNameAux : Nat → Bytes → Bytes
  | _, [] => []
  | skip + 1, _ :: r => foldNameAux skip r
  | 0, c :: r =>
    if c = 197 ∧ r.head? = some 191 then 83 :: foldNameAux 1 r
    else if c = 226 ∧ r.head? = some 132 ∧ r.tail.head? = some 170 then 75 :: foldNameAux 2 r
    else (if 97 ≤ c ∧ c ≤ 122 then c - 32 else c) :: foldNameAux 0 r

/-- The folded form of an object key. -/
def foldName (key : Bytes) : Bytes := foldNameAux 0 key

/-- Whether an object key selects the struct field with JSON name `name`:
the exact name, or else equal after folding. -/
def fieldMatch (key : Bytes) (name : String) : Bool :=
  key == str name || foldName key == foldName (str name)

/-- Decode a JSON value into a Go `string` field holding `old`: a string is
stored, `null` leaves the field alone, anything else is an
`UnmarshalTypeError`. -/
def decodeString (old : Bytes) : JVal → Option Bytes
  | JVal.str s => some s
  | JVal.null => some old
  | _ => none

/-- Decode into `struct { Content string }` (the type of `Delta` and of
`Message`) holding `old` as its `Content`. -/
def decodeContentStruct (old : Bytes) : JVal → Option Bytes
  | JVal.obj kvs =>
    kvs.foldlM (fun acc kv => if fieldMatch kv.1 "content" then decodeString acc kv.2 else some acc)
      old
  | JVal.null => some old
  | _ => none

/-- Decode into one element of `Choices` holding `old`.  With
`hasDelta = false` the struct has no `Delta` field (the struct of
`handleRegularResponse`) and a `delta` key is skipped like any unknown key. -/
def decodeChoice (hasDelta : Bool) (old : Choice) : JVal → Option Choice
  | JVal.obj kvs =>
    kvs.foldlM (fun acc kv =>
      if hasDelta && fieldMatch kv.1 "delta" then
        (decodeContentStruct acc.delta kv.2).map fun d => { acc with delta := d }
      else if fieldMatch kv.1 "message" then
        (decodeContentStruct acc.message kv.2).map fun m => { acc with message := m }
      else some acc) old
  | JVal.null => some old
  | _ => none

/-- Decode the elements of a JSON array into the slice holding `old`: element
`i` is decoded into the existing element `i` when there is one, and into a
zero element otherwise. -/
def decodeElems (hasDelta : Bool) : List JVal → List Choice → Option (List Choice)
  | [], _ => some []
  | x :: xs, old =>
    match decodeChoice hasDelta (old.head?.getD { delta := [], message := [] }) x with
    | none => none
    | some c => (decodeElems hasDelta xs old.tail).map fun cs => c :: cs

/-- Decode into the `Choices` slice holding `old`: an array replaces the
slice, `null` sets it to nil.  (Go keeps stale elements between the length
and the capacity of a slice that an earlier duplicate key has shortened;
they can only reappear at an index above zero, which the proxy never
reads.) -/
def decodeChoices (hasDelta : Bool) (old : List Choice) : JVal → Option (List Choice)
  | JVal.arr xs => decodeElems hasDelta xs old
  | JVal.null => some []
  | _ => none

/-- Decode the top-level value into the result struct and return its
`Choices`. -/
def decodeResult (hasDelta : Bool) : JVal → Option (List Choice)
  | JVal.obj kvs =>
    kvs.foldlM (fun acc kv =>
      if fieldMatch kv.1 "choices" then decodeChoices hasDelta acc kv.2 else some acc) []
  | JVal.null => some []
  | _ => none

/-- Go `json.Unmarshal(data, &result)` for the result struct of
`handleStreamingResponse`: `none` when the returned error is non-nil,
otherwise `result.Choices`. -/
def jsonUnmarshal (data : Bytes) : Option (List Choice) :=
  (parseJSON data).bind (decodeResult true)

/-- Go `json.Unmarshal(bodyBytes, &result)` for the result struct of
`handleRegularResponse`: `none` when the returned error is non-nil, otherwise
the `Message.Content` of each element of `result.Choices`. -/
def jsonUnmarshalMessage (data : Bytes) : Option (List Bytes) :=
  ((parseJSON data).bind (decodeResult false)).map fun cs => cs.map Choice.message

/-! ## handleRegularResponse -/

/-- What one `handleRegularResponse` call does: the messages passed to
`log.Printf` (after formatting, without the logger's own prefix) and the
byte slices passed to `w.Write`, both in call order. -/
structure RegularResult where
  logs : List Bytes
  writes : List Bytes
deriving DecidableEq, Repr

/-- The embedding of `handleRegularResponse`.  `body` is the result of
`io.ReadAll(body)`: `none` for a read error, whose text is left out of the
logged message.  `unmarshal` is `json.Unmarshal`
into the result struct: `none` for an error, otherwise the
`Message.Content` of each element of `Choices`. -/
def handleRegularResponse (unmarshal : Bytes → Option (List Bytes)) (body : Option Bytes) :
    RegularResult :=
  match body with
  | none => { logs := [str "Error reading response body: "], writes := [] }
  | some bodyBytes =>
    let logged :=
      match unmarshal bodyBytes with
      | some (modelAnswer :: _) => str "\n\n- - -\n\n" ++ modelAnswer
      | _ => str "\n\n- - -\n\n" ++ bodyBytes
    { logs := [logged], writes := [bodyBytes] }

/-! ## strconv.Atoi and get_length -/

/-- The value of a non-empty string of decimal digits; `none` when the
string is empty or has another byte. -/
def digitsValue (s : Bytes) : Option Nat :=
  if s = [] then none
  else s.foldl (fun acc ch => acc.bind fun n => if isDigit ch then some (n * 10 + (ch - 48)) else none)
    (some 0)

/-- Go `strconv.Atoi` on a 64-bit platform: an optional sign and decimal
digits; `none` for a syntax error or a value outside `int`. -/
def atoi (s : Bytes) : Option Int :=
  let neg := s.head? = some 45
  let ds := if s.head? = some 45 ∨ s.head? = some 43 then s.tail else s
  match digitsValue ds with
  | none => none
  | some n =>
    let v : Int := if neg then -(n : Int) else (n : Int)
    if -(2 : Int) ^ 63 ≤ v ∧ v ≤ (2 : Int) ^ 63 - 1 then some v else none

/-- The result of 64-bit two's-complement `int` arithmetic. -/
def wrapInt (x : Int) : Int := (x + 2 ^ 63) % 2 ^ 64 - 2 ^ 63

/-- The embedding of `get_length` (llm-bench); `none` when it ends the
process with `log.Fatalf`. -/
def get_length (s : Bytes) : Option Int :=
  if s.length = 0 then some (-1)
  else
    let last := s.getLast?
    let lk : Nat × Int :=
      if last = some 107 ∨ last = some 75 then (s.length - 1, 1000) else (s.length, 1)
    match atoi (s.take lk.1) with
    | none => none
    | some num => some (wrapInt (num * lk.2))

/-! ## Startup validation and Host rewriting in `main` -/

/-- A regular expression matching exactly the byte string `s`. -/
def lit (s : Bytes) : RegularExpression Nat :=
  s.foldr (fun c r => RegularExpression.char c * r) 1

/-- A character class: any one byte of `cs`. -/
def cls (cs : Bytes) : RegularExpression Nat :=
  cs.foldr (fun c r => RegularExpression.char c + r) 0

/-- The bytes from `lo` to `hi`. -/
def byteRange (lo hi : Nat) : Bytes := (List.range (hi + 1 - lo)).map (· + lo)

/-- The operator `+` of regular expressions: one or more. -/
def plusRe (r : RegularExpression Nat) : RegularExpression Nat := r * RegularExpression.star r

/-- The operator `?` of regular expressions: zero or one. -/
def optRe (r : RegularExpression Nat) : RegularExpression Nat := r + 1

/-- The class `[a-zA-Z0-9.-]`. -/
def hostClass : Bytes := byteRange 97 122 ++ byteRange 65 90 ++ byteRange 48 57 ++ [46, 45]

/-- The class `[0-9]`. -/
def digitClass : Bytes := byteRange 48 57

/-- The pattern `^https?://[a-zA-Z0-9.-]+:[0-9]+$` of proxy.go line 26; the
anchors make it a match of the whole string. -/
def targetRegex : RegularExpression Nat :=
  lit (str "http") * optRe (RegularExpression.char 115) * lit (str "://") *
    plusRe (cls hostClass) * RegularExpression.char 58 * plusRe (cls digitClass)

/-- Go `targetRegex.MatchString`. -/
def matchString (re : RegularExpression Nat) (s : Bytes) : Bool := re.rmatch s

/-- Go `strings.Split(s, sep)` for a one-byte separator. -/
def split : Bytes → Nat → List Bytes
  | [], _ => [[]]
  | c :: cs, sep =>
    if c = sep then [] :: split cs sep
    else
      match split cs sep with
      | seg :: segs => (c :: seg) :: segs
      | [] => [[c]]

/-- How the startup code of `main` ends: with one of its four `log.Fatalf`
calls, or by going on to construct the transport and the proxy server. -/
inductive Startup where
  | invalidFormat
  | portNotNumber
  | targetPortRange
  | listenPortRange
  | proceed
deriving DecidableEq, Repr

/-- The embedding of proxy.go lines 25-44 for the parsed flags `port` and
`targetAddr`. -/
def mainStartup (port : Int) (targetAddr : Bytes) : Startup :=
  if !matchString targetRegex targetAddr then Startup.invalidFormat
  else
    let targetPortStr := ((split targetAddr 58).getLast?).getD []
    match atoi targetPortStr with
    | none => Startup.portNotNumber
    | some targetPort =>
      if targetPort < 1 ∨ targetPort > 65535 then Startup.targetPortRange
      else if port < 1 ∨ port > 65535 then Startup.listenPortRange
      else Startup.proceed

/-- The embedding of proxy.go lines 83-84: the `Host` of the forwarded
request. -/
def proxyHost (targetAddr : Bytes) : Bytes :=
  trimPrefix (trimPrefix targetAddr (str "http://")) (str "https://")

/-! ## Example frames and bodies -/

/-- The JSON line `{"choices":[{"delta":{"content":"<text>"}}]}`. -/
def deltaFrame (text : String) : Bytes :=
  str "\x7b\"choices\":[\x7b\"delta\":\x7b\"content\":\"" ++ str text ++ str "\"\x7d\x7d]\x7d"

/-- The SSE line `data: {"choices":[{"delta":{"content":"<text>"}}]}`. -/
def sseFrame (text : String) : Bytes := str "data: " ++ deltaFrame text

/-- The JSON line
`{"choices":[{"delta":{"content":"<x>"},"message":{"content":"<y>"}}]}`. -/
def bothFrame (x y : String) : Bytes :=
  str "\x7b\"choices\":[\x7b\"delta\":\x7b\"content\":\"" ++ str x ++
    str "\"\x7d,\"message\":\x7b\"content\":\"" ++ str y ++ str "\"\x7d\x7d]\x7d"

/-- The non-streaming body `{"choices":[{"message":{"content":"Answer"}}],"id":"x"}`. -/
def answerBody : Bytes :=
  str "\x7b\"choices\":[\x7b\"message\":\x7b\"content\":\"Answer\"\x7d\x7d],\"id\":\"x\"\x7d"

/-- The error body `{"error":"x"}`. -/
def errorBody : Bytes := str "\x7b\"error\":\"x\"\x7d"

/-! ## Specification vocabulary and loop invariants -/

/-- The invariant of the scan loop for the upstream body `B`. -/
structure Relay.Inv (B : Bytes) (r : Relay) : Prop where
  fits : r.sc.start + r.sc.data.length ≤ r.sc.bufLen
  cap : r.sc.bufLen ≤ maxScanTokenSize
  forwarded : r.client ++ r.up.rest = B
  eof : r.sc.err = some ScanErr.eof → r.up.rest = []
  buffered : r.sc.data <:+ r.client
  long : r.sc.err = some ScanErr.tooLong →
    r.running = false ∧ 10 ∉ r.sc.data ∧ r.sc.data.length = maxScanTokenSize
  stopped : r.running = false → r.sc.err.isSome = true

/-- The number of loop iterations still possible. -/
def Relay.measure (r : Relay) : Nat :=
  2 * r.up.rest.length + r.sc.data.length + (if r.sc.err.isSome then 0 else 1) +
    (if r.running then 1 else 0)

/-- The loop invariant while the body starts with `maxScanTokenSize` bytes
without a newline and has more bytes after them. -/
structure Relay.Stall (B : Bytes) (r : Relay) : Prop where
  inv : r.Inv B
  short : r.client.length ≤ maxScanTokenSize
  live : r.running = true →
    r.sc.start = 0 ∧ r.sc.err = none ∧ r.sc.data = r.client ∧ r.out = str "- - -\n"
  dead : r.running = false →
    r.sc.err = some ScanErr.tooLong ∧ r.out = str "- - -\n" ++ str "\n\n"

/-- The stream made of the given frames, each followed by a newline. -/
def joinFrames (frames : List Bytes) : Bytes := (frames.map (· ++ [10])).flatten

/-- The fragments printed for the given frames, one after the other: each
frame is scanned as the line without its trailing `\r`, if any. -/
def frameFragments (unmarshal : Bytes → Option (List Choice)) (frames : List Bytes) : Bytes :=
  (frames.map fun f => (lineFragment unmarshal (dropCR f)).getD []).flatten

/-- The loop invariant for a stream of newline-terminated frames: the frames
split into those already scanned and those still in the buffer or upstream. -/
structure Relay.Framed (u : Bytes → Option (List Choice)) (frames : List Bytes) (r : Relay) :
    Prop where
  inv : r.Inv (joinFrames frames)
  parts : ∃ done todo, frames = done ++ todo ∧ r.sc.data ++ r.up.rest = joinFrames todo ∧
    (r.running = true → r.out = str "- - -\n" ++ frameFragments u done) ∧
    (r.running = false → r.sc.err = some ScanErr.eof ∧
      r.out = str "- - -\n" ++ frameFragments u frames ++ str "\n\n")

/-- A target address of the form `scheme host : digits` with a non-empty
host of letters, digits, dots and dashes and a non-empty port of digits. -/
def WellFormed (scheme host digits : Bytes) : Prop :=
  (scheme = str "http://" ∨ scheme = str "https://") ∧
  host ≠ [] ∧ (∀ c ∈ host, c ∈ hostClass) ∧ digits ≠ [] ∧ (∀ c ∈ digits, 48 ≤ c ∧ c ≤ 57)

/-- The number a string of decimal digits denotes. -/
def decimalValue (ds : Bytes) : Nat := Nat.ofDigits 10 (ds.reverse.map (· - 48))

/-- The string `d` is a decimal integer numeral, an optional sign and at
least one digit, and denotes `n`. -/
def IsNumeral (d : Bytes) (n : Int) : Prop :=
  ∃ ds, ds ≠ [] ∧ (∀ c ∈ ds, 48 ≤ c ∧ c ≤ 57) ∧
    ((d = ds ∧ n = decimalValue ds) ∨ (d = 43 :: ds ∧ n = decimalValue ds) ∨
      (d = 45 :: ds ∧ n = -(decimalValue ds : Int)))

/-- The range of a Go `int`. -/
def InIntRange (n : Int) : Prop := -(2 : Int) ^ 63 ≤ n ∧ n ≤ (2 : Int) ^ 63 - 1

/-- The part of a length string that `get_length` hands to `strconv.Atoi`:
the string without one trailing `k` or `K`. -/
def stem (s : Bytes) : Bytes :=
  if s.getLast? = some 107 ∨ s.getLast? = some 75 then s.dropLast else s

/-! ## Theorems -/

open RegularExpression

theorem indexByte_eq_none {d : Bytes} {c : Nat} : indexByte d c = none ↔ c ∉ d := by
  induction d with
  | nil => simp [indexByte]
  | cons b bs ih =>
    by_cases h : b = c
    · simp [indexByte, h]
    · simp [indexByte, h, ih, Ne.symm h]

theorem indexByte_some {d : Bytes} {c i : Nat} (h : indexByte d c = some i) :
    i < d.length ∧ d = d.take i ++ c :: d.drop (i + 1) ∧ c ∉ d.take i := by
  induction d generalizing i with
  | nil => simp [indexByte] at h
  | cons b bs ih =>
    by_cases hb : b = c
    · simp [indexByte, hb] at h
      subst h; simp [hb]
    · simp only [indexByte, hb, if_false, Option.map_eq_some'] at h
      obtain ⟨j, hj, rfl⟩ := h
      obtain ⟨h1, h2, h3⟩ := ih hj
      refine ⟨by simp; omega, ?_, ?_⟩
      · simp only [List.take_succ_cons, List.drop_succ_cons, List.cons_append]
        rw [← h2]
      · simp [List.take_succ_cons, Ne.symm hb, h3]

theorem step_cases (u : Bytes → Option (List Choice)) (r : Relay) (P : Relay → Prop)
    (hrun : r.running = true)
    (htok : ∀ adv line, r.sc.token = (adv, some line) →
      P { r with
          sc := { r.sc with data := r.sc.data.drop adv, start := r.sc.start + adv },
          out := r.out ++ (lineFragment u line).getD [] })
    (heof : r.sc.token.2 = none → r.sc.err.isSome = true →
      P (r.finish { r.sc with data := [], start := 0 }))
    (hlong : r.sc.token.2 = none → r.sc.err = none →
      r.sc.shift.start + r.sc.shift.data.length = r.sc.shift.bufLen →
      (r.sc.shift.bufLen ≥ maxScanTokenSize ∨ r.sc.shift.bufLen > maxInt / 2) →
      P (r.finish { r.sc.shift with err := some ScanErr.tooLong }))
    (hgrow : r.sc.token.2 = none → r.sc.err = none →
      r.sc.shift.start + r.sc.shift.data.length = r.sc.shift.bufLen →
      ¬ (r.sc.shift.bufLen ≥ maxScanTokenSize ∨ r.sc.shift.bufLen > maxInt / 2) →
      P (r.fill r.sc.shift.grow))
    (hfill : r.sc.token.2 = none → r.sc.err = none →
      r.sc.shift.start + r.sc.shift.data.length ≠ r.sc.shift.bufLen →
      P (r.fill r.sc.shift)) :
    P (r.step u) := by
  unfold Relay.step
  rw [if_neg (by simp [hrun])]
  rcases ht : r.sc.token with ⟨adv, _ | line⟩
  · simp only
    have ht2 : r.sc.token.2 = none := by rw [ht]
    by_cases he : r.sc.err.isSome = true
    · simp only [he, if_true]; exact heof ht2 he
    · simp only [he, if_false]
      have hen : r.sc.err = none := by
        cases h : r.sc.err with
        | none => rfl
        | some e => simp [h] at he
      by_cases hf : r.sc.shift.start + r.sc.shift.data.length = r.sc.shift.bufLen
      · simp only [hf, if_true]
        by_cases hb : r.sc.shift.bufLen ≥ maxScanTokenSize ∨ r.sc.shift.bufLen > maxInt / 2
        · simp only [hb, if_true]; exact hlong ht2 hen hf hb
        · simp only [hb, if_false]; exact hgrow ht2 hen hf hb
      · simp only [hf, if_false]; exact hfill ht2 hen hf
  · simp only
    exact htok adv line ht

theorem read_nil (u : Upstream) (cap : Nat) (h : u.rest = []) : u.read cap = ([], true, u) := by
  unfold Upstream.read; rw [h]

theorem read_append (u : Upstream) (cap : Nat) :
    (u.read cap).1 ++ (u.read cap).2.2.rest = u.rest := by
  unfold Upstream.read
  cases h : u.rest with
  | nil => simp [h]
  | cons a as => simp

theorem read_length_le (u : Upstream) (cap : Nat) : (u.read cap).1.length ≤ cap := by
  unfold Upstream.read
  cases h : u.rest with
  | nil => simp
  | cons a as => simp only [List.length_take]; omega

theorem read_length_pos (u : Upstream) (cap : Nat) (h : u.rest ≠ []) (hc : 0 < cap) :
    0 < (u.read cap).1.length := by
  unfold Upstream.read
  cases h1 : u.rest with
  | nil => exact absurd h1 h
  | cons a as => simp only [List.length_take, List.length_cons]; omega

theorem read_eof (u : Upstream) (cap : Nat) (h : (u.read cap).2.1 = true) :
    (u.read cap).2.2.rest = [] := by
  unfold Upstream.read at h ⊢
  cases h1 : u.rest with
  | nil => simp [h1]
  | cons a as =>
    rw [h1] at h
    simp only [Bool.and_eq_true, List.isEmpty_iff] at h
    simpa using h.2

theorem read_not_eof (u : Upstream) (cap : Nat) (h : (u.read cap).2.2.rest ≠ []) :
    (u.read cap).2.1 = false := by
  cases h1 : (u.read cap).2.1 with
  | false => rfl
  | true => exact absurd (read_eof u cap h1) h

theorem scanLines_token {d : Bytes} {e : Bool} {adv : Nat} {line : Bytes}
    (h : scanLines d e = (adv, some line)) : 1 ≤ adv ∧ adv ≤ d.length := by
  unfold scanLines at h
  split at h
  · simp at h
  · rename_i hne
    split at h
    · rename_i i hi
      simp only [Prod.mk.injEq, Option.some.injEq] at h
      have := (indexByte_some hi).1
      omega
    · split at h
      · rename_i he
        simp only [Prod.mk.injEq, Option.some.injEq] at h
        simp only [he, Bool.true_and, List.isEmpty_iff] at hne
        have : d.length ≠ 0 := by simpa using hne
        omega
      · simp at h

theorem token_bounds {s : Scanner} {adv : Nat} {line : Bytes}
    (h : s.token = (adv, some line)) : 1 ≤ adv ∧ adv ≤ s.data.length := by
  unfold Scanner.token at h
  split at h
  · exact scanLines_token h
  · simp at h

theorem shift_data (s : Scanner) : s.shift.data = s.data := by
  unfold Scanner.shift; split <;> rfl

theorem shift_err (s : Scanner) : s.shift.err = s.err := by
  unfold Scanner.shift; split <;> rfl

theorem shift_bufLen (s : Scanner) : s.shift.bufLen = s.bufLen := by
  unfold Scanner.shift; split <;> rfl

theorem shift_start_le (s : Scanner) : s.shift.start ≤ s.start := by
  unfold Scanner.shift; split <;> simp

/-- When the shifted buffer is full, the data starts at offset zero. -/
theorem shift_full_start (s : Scanner)
    (h : s.shift.start + s.shift.data.length = s.shift.bufLen) : s.shift.start = 0 := by
  unfold Scanner.shift at h ⊢
  split
  · rfl
  · rename_i hc
    split at h
    · contradiction
    · simp only [Bool.and_eq_true, decide_eq_true_eq, Bool.or_eq_true, not_and, not_or] at hc
      by_cases h0 : s.start > 0
      · exact absurd h (hc h0).1
      · omega

theorem token_none_no_newline {s : Scanner} (h : s.token.2 = none) (he : s.err = none) :
    10 ∉ s.data := by
  unfold Scanner.token at h
  split at h
  · unfold scanLines at h
    simp only [he, Option.isSome_none, Bool.false_and, Bool.false_eq_true, if_false] at h
    cases hi : indexByte s.data 10 with
    | none => exact indexByte_eq_none.mp hi
    | some i => simp [hi] at h
  · rename_i hc
    simp only [Bool.or_eq_true, decide_eq_true_eq, not_or] at hc
    have : s.data = [] := List.length_eq_zero.mp (by omega)
    simp [this]

theorem token_none_eof {s : Scanner} (h : s.token.2 = none) (he : s.err.isSome = true) :
    s.data = [] := by
  unfold Scanner.token at h
  simp only [he, Bool.or_true, if_true] at h
  unfold scanLines at h
  by_cases hd : s.data = []
  · exact hd
  · have : s.data.isEmpty = false := by simpa using hd
    simp only [this, Bool.and_false, Bool.false_eq_true, if_false] at h
    cases hi : indexByte s.data 10 with
    | none => simp [hi] at h
    | some i => simp [hi] at h

theorem init_inv (B : Bytes) (sched : List (Nat × Bool)) : (Relay.init B sched).Inv B := by
  constructor <;> simp [Relay.init, maxScanTokenSize]

theorem fill_inv {B : Bytes} {r : Relay} {s : Scanner} (hr : r.Inv B) (hrun : r.running = true)
    (hd : s.data = r.sc.data) (he : s.err = none)
    (hfit : s.start + s.data.length ≤ s.bufLen) (hcap : s.bufLen ≤ maxScanTokenSize) :
    (r.fill s).Inv B := by
  have hl := read_length_le r.up (s.bufLen - (s.start + s.data.length))
  have ha := read_append r.up (s.bufLen - (s.start + s.data.length))
  constructor
  · simp only [Relay.fill, List.length_append]; omega
  · simpa [Relay.fill] using hcap
  · simp only [Relay.fill, List.append_assoc]; rw [ha]; exact hr.forwarded
  · intro h
    simp only [Relay.fill] at h ⊢
    split at h
    · rename_i hf; exact read_eof _ _ hf
    · rw [he] at h; cases h
  · simp only [Relay.fill]
    rw [hd]
    obtain ⟨t, ht⟩ := hr.buffered
    exact ⟨t, by rw [← ht]; simp⟩
  · intro h
    simp only [Relay.fill] at h
    split at h
    · cases h
    · rw [he] at h; cases h
  · intro h
    simp [Relay.fill, hrun] at h

theorem step_inv (u : Bytes → Option (List Choice)) {B : Bytes} {r : Relay} (hr : r.Inv B) :
    (r.step u).Inv B := by
  by_cases hrun : r.running = true
  · apply step_cases u r (Relay.Inv B) hrun
    · intro adv line ht
      have hb := token_bounds ht
      constructor
      · have := hr.fits; simp only [List.length_drop]; omega
      · exact hr.cap
      · exact hr.forwarded
      · exact hr.eof
      · exact (List.drop_suffix adv _).trans hr.buffered
      · intro h; have := (hr.long h).1; rw [hrun] at this; cases this
      · intro h; simp [hrun] at h
    · intro ht he
      have hd := token_none_eof ht he
      constructor
      · simp [Relay.finish]
      · exact hr.cap
      · exact hr.forwarded
      · exact hr.eof
      · simp [Relay.finish]
      · intro h; have := (hr.long h).1; rw [hrun] at this; cases this
      · intro _; exact he
    · intro ht he hf hb
      have h0 := shift_full_start r.sc hf
      have hnl := token_none_no_newline ht he
      have hcap := hr.cap
      rw [shift_data, shift_bufLen] at hf
      rw [shift_bufLen] at hb
      have hmax : maxInt / 2 ≥ maxScanTokenSize := by decide
      constructor
      · simp only [Relay.finish, shift_data, shift_bufLen]; omega
      · simpa [Relay.finish, shift_bufLen] using hr.cap
      · exact hr.forwarded
      · intro h; simp [Relay.finish] at h
      · simpa [Relay.finish, shift_data] using hr.buffered
      · intro _
        refine ⟨rfl, ?_, ?_⟩
        · simpa [Relay.finish, shift_data] using hnl
        · simp only [Relay.finish, shift_data]; omega
      · intro _; simp [Relay.finish]
    · intro ht he hf hb
      have h0 := shift_full_start r.sc hf
      rw [shift_data, shift_bufLen] at hf
      rw [shift_bufLen] at hb
      apply fill_inv hr hrun
      · simp [Scanner.grow, shift_data]
      · simp [Scanner.grow, shift_err, he]
      · simp only [Scanner.grow, shift_data, shift_bufLen, startBufSize, maxScanTokenSize] at *
        split <;> omega
      · simp [Scanner.grow]
    · intro ht he hf
      apply fill_inv hr hrun
      · exact shift_data _
      · rw [shift_err]; exact he
      · have := shift_start_le r.sc
        have := hr.fits
        rw [shift_data, shift_bufLen]; omega
      · rw [shift_bufLen]; exact hr.cap
  · have : r.step u = r := by
      unfold Relay.step; simp [hrun]
    rw [this]; exact hr

theorem fill_measure {r : Relay} {s : Scanner} (hrun : r.running = true)
    (hd : s.data = r.sc.data) (he : s.err = none) (he0 : r.sc.err = none)
    (hfit : s.start + s.data.length < s.bufLen) :
    (r.fill s).measure < r.measure := by
  have hlen : s.data.length = r.sc.data.length := by rw [hd]
  generalize hcap : s.bufLen - (s.start + s.data.length) = cap at *
  have hcpos : 0 < cap := by omega
  have ha := congrArg List.length (read_append r.up cap)
  simp only [List.length_append] at ha
  have hm : (r.fill s).measure = 2 * (r.up.read cap).2.2.rest.length +
      (s.data.length + (r.up.read cap).1.length) +
      (if (r.up.read cap).2.1 = true then 0 else 1) + 1 := by
    simp only [Relay.measure, Relay.fill, hcap, hrun, List.length_append, he, if_true]
    cases (r.up.read cap).2.1 <;> simp
  have hm0 : r.measure = 2 * r.up.rest.length + r.sc.data.length + 1 + 1 := by
    simp [Relay.measure, hrun, he0]
  rw [hm, hm0]
  by_cases hrest : r.up.rest = []
  · have hread := read_nil r.up cap hrest
    rw [hread]; simp [hrest]; omega
  · have hp := read_length_pos r.up cap hrest hcpos
    split <;> omega

theorem step_measure (u : Bytes → Option (List Choice)) {B : Bytes} {r : Relay} (hr : r.Inv B)
    (hrun : r.running = true) : (r.step u).measure < r.measure := by
  apply step_cases u r (fun x => x.measure < r.measure) hrun
  · intro adv line ht
    have hb := token_bounds ht
    simp only [Relay.measure, List.length_drop]
    omega
  · intro ht he
    simp only [Relay.measure, Relay.finish, hrun, he]
    simp only [List.length_nil, if_true, Bool.false_eq_true, if_false]
    omega
  · intro ht he hf hb
    simp only [Relay.measure, Relay.finish, hrun, he, shift_data]
    simp only [Option.isSome_some, Option.isSome_none, if_true, Bool.false_eq_true, if_false]
    omega
  · intro ht he hf hb
    have h0 := shift_full_start r.sc hf
    rw [shift_data, shift_bufLen] at hf
    rw [shift_bufLen] at hb
    apply fill_measure hrun _ _ he
    · simp only [Scanner.grow, shift_data, shift_bufLen, startBufSize, maxScanTokenSize] at *
      split <;> omega
    · simp [Scanner.grow, shift_data]
    · simp [Scanner.grow, shift_err, he]
  · intro ht he hf
    apply fill_measure hrun (shift_data _) (by rw [shift_err]; exact he) he
    have := shift_start_le r.sc
    have := hr.fits
    rw [shift_data, shift_bufLen] at hf ⊢
    omega

theorem step_stopped (u : Bytes → Option (List Choice)) {r : Relay} (h : r.running = false) :
    r.step u = r := by
  unfold Relay.step; simp [h]

theorem run_stopped (u : Bytes → Option (List Choice)) (n : Nat) {r : Relay}
    (h : r.running = false) : Relay.run u n r = r := by
  induction n with
  | zero => rfl
  | succ n ih => simp only [Relay.run]; rw [step_stopped u h]; exact ih

theorem run_inv (u : Bytes → Option (List Choice)) {B : Bytes} (n : Nat) {r : Relay}
    (hr : r.Inv B) : (Relay.run u n r).Inv B := by
  induction n generalizing r with
  | zero => exact hr
  | succ n ih => exact ih (step_inv u hr)

theorem run_add (u : Bytes → Option (List Choice)) (m n : Nat) (r : Relay) :
    Relay.run u (m + n) r = Relay.run u n (Relay.run u m r) := by
  induction m generalizing r with
  | zero => simp [Relay.run]
  | succ m ih => rw [Nat.succ_add]; simp only [Relay.run]; exact ih _

theorem run_finished (u : Bytes → Option (List Choice)) {B : Bytes} (n : Nat) {r : Relay}
    (hr : r.Inv B) (hm : r.measure ≤ n) : (Relay.run u n r).running = false := by
  induction n generalizing r with
  | zero =>
    cases h : r.running with
    | false => simpa [Relay.run] using h
    | true => simp [Relay.measure, h] at hm
  | succ n ih =>
    cases h : r.running with
    | false => rw [run_stopped u _ h]; exact h
    | true =>
      have := step_measure u hr h
      exact ih (step_inv u hr) (by omega)

theorem init_measure (B : Bytes) (sched : List (Nat × Bool)) :
    (Relay.init B sched).measure = 2 * B.length + 2 := by
  simp [Relay.measure, Relay.init]

theorem handle_inv (u : Bytes → Option (List Choice)) (B : Bytes) (sched : List (Nat × Bool)) :
    (handleStreamingResponse u B sched).Inv B :=
  run_inv u _ (init_inv B sched)

theorem handle_stopped (u : Bytes → Option (List Choice)) (B : Bytes)
    (sched : List (Nat × Bool)) : (handleStreamingResponse u B sched).running = false :=
  run_finished u _ (init_inv B sched) (by rw [init_measure]; omega)

theorem split_ne_nil (s : Bytes) (sep : Nat) : split s sep ≠ [] := by
  cases s with
  | nil => simp [split]
  | cons c cs =>
    simp only [split]
    split
    · simp
    · split <;> simp

theorem prefix_split_head {d cs : Bytes} {sep : Nat} (hp : d <+: cs) (hd : sep ∉ d) :
    ∃ seg segs, split cs sep = seg :: segs ∧ d <+: seg := by
  induction cs generalizing d with
  | nil =>
    have : d = [] := List.prefix_nil.mp hp
    exact ⟨[], [], by simp [split], by simp [this]⟩
  | cons c cs ih =>
    cases d with
    | nil =>
      cases h : split (c :: cs) sep with
      | nil => exact absurd h (split_ne_nil _ _)
      | cons seg segs => exact ⟨seg, segs, rfl, List.nil_prefix⟩
    | cons a d' =>
      obtain ⟨rfl, hp'⟩ := List.cons_prefix_cons.mp hp
      have hne : a ≠ sep := fun h => hd (by simp [h])
      have hd' : sep ∉ d' := fun h => hd (by simp [h])
      obtain ⟨seg, segs, hs, hpre⟩ := ih hp' hd'
      refine ⟨a :: seg, segs, ?_, List.cons_prefix_cons.mpr ⟨rfl, hpre⟩⟩
      simp [split, hne, hs]

theorem infix_split {d B : Bytes} {sep : Nat} (hi : d <:+: B) (hd : sep ∉ d) :
    ∃ l ∈ split B sep, d.length ≤ l.length := by
  induction B with
  | nil =>
    have : d = [] := List.infix_nil.mp hi
    exact ⟨[], by simp [split], by simp [this]⟩
  | cons c cs ih =>
    rcases List.infix_cons_iff.mp hi with hp | hin
    · obtain ⟨seg, segs, hs, hpre⟩ := prefix_split_head hp hd
      exact ⟨seg, by rw [hs]; simp, hpre.length_le⟩
    · obtain ⟨l, hl, hlen⟩ := ih hin
      by_cases hc : c = sep
      · exact ⟨l, by simp [split, hc, hl], hlen⟩
      · cases hs : split cs sep with
        | nil => exact absurd hs (split_ne_nil _ _)
        | cons seg segs =>
          rw [hs] at hl
          rcases List.mem_cons.mp hl with rfl | hm
          · exact ⟨c :: l, by simp [split, hc, hs], by simp; omega⟩
          · exact ⟨l, by simp [split, hc, hs, hm], hlen⟩

/-- When every line of the body is shorter than the scanner's maximum token
size, the scanner never gives up with ErrTooLong. -/
theorem inv_not_tooLong {B : Bytes} {r : Relay} (hr : r.Inv B)
    (hB : ∀ l ∈ split B 10, l.length < maxScanTokenSize) :
    r.sc.err ≠ some ScanErr.tooLong := by
  intro h
  obtain ⟨_, hnl, hlen⟩ := hr.long h
  have hin : r.sc.data <:+: B := by
    have h1 : r.sc.data <:+: r.client := hr.buffered.isInfix
    have h2 : r.client <:+: B := by
      rw [← hr.forwarded]; exact (List.prefix_append _ _).isInfix
    exact h1.trans h2
  obtain ⟨l, hl, hle⟩ := infix_split hin hnl
  have := hB l hl
  omega

theorem inv_stopped_eof {B : Bytes} {r : Relay} (hr : r.Inv B) (hs : r.running = false)
    (hB : ∀ l ∈ split B 10, l.length < maxScanTokenSize) :
    r.sc.err = some ScanErr.eof := by
  have h1 := hr.stopped hs
  have h2 := inv_not_tooLong hr hB
  cases he : r.sc.err with
  | none => simp [he] at h1
  | some e =>
    cases e with
    | eof => rfl
    | tooLong => exact absurd he h2

/-- C10: the prefix invariant of the tee relay.  After any number of loop
iterations the bytes forwarded to the client are a prefix of the upstream
body; the handler returns; when the scanner has consumed the body to
end-of-stream the client has received all of it, which is the case whenever
every line of the body is shorter than the scanner's maximum token size of
64 KiB; and once the scanner has stopped nothing more is forwarded. -/
theorem tee_prefix_invariant (unmarshal : Bytes → Option (List Choice)) (B : Bytes)
    (sched : List (Nat × Bool)) :
    (∀ n, (Relay.run unmarshal n (Relay.init B sched)).client <+: B) ∧
    (handleStreamingResponse unmarshal B sched).running = false ∧
    ((handleStreamingResponse unmarshal B sched).sc.err = some ScanErr.eof →
      (handleStreamingResponse unmarshal B sched).client = B) ∧
    ((∀ l ∈ split B 10, l.length < maxScanTokenSize) →
      (handleStreamingResponse unmarshal B sched).sc.err = some ScanErr.eof) ∧
    (∀ n, (Relay.run unmarshal n (Relay.init B sched)).running = false →
      ∀ m, n ≤ m → (Relay.run unmarshal m (Relay.init B sched)).client =
        (Relay.run unmarshal n (Relay.init B sched)).client) := by
  refine ⟨?_, handle_stopped unmarshal B sched, ?_, ?_, ?_⟩
  · intro n
    have := (run_inv unmarshal n (init_inv B sched)).forwarded
    exact ⟨_, this⟩
  · intro h
    have hi := handle_inv unmarshal B sched
    have := hi.forwarded
    rw [hi.eof h, List.append_nil] at this
    exact this
  · intro hB
    exact inv_stopped_eof (handle_inv unmarshal B sched) (handle_stopped unmarshal B sched) hB
  · intro n hn m hm
    obtain ⟨k, rfl⟩ := Nat.exists_eq_add_of_le hm
    rw [run_add, run_stopped unmarshal k hn]

theorem token_some_newline {s : Scanner} {adv : Nat} {line : Bytes}
    (h : s.token = (adv, some line)) (he : s.err = none) : 10 ∈ s.data := by
  unfold Scanner.token at h
  split at h
  · unfold scanLines at h
    simp only [he, Option.isSome_none, Bool.false_and, Bool.false_eq_true, if_false] at h
    cases hi : indexByte s.data 10 with
    | none => simp [hi] at h
    | some i =>
      by_contra hn
      rw [indexByte_eq_none.mpr hn] at hi
      cases hi
  · simp at h

theorem init_stall (B : Bytes) (sched : List (Nat × Bool)) : (Relay.init B sched).Stall B := by
  refine ⟨init_inv B sched, by simp [Relay.init], ?_, ?_⟩
  · intro _; simp [Relay.init]
  · intro h; simp [Relay.init] at h

theorem fill_stall {B : Bytes} {r : Relay} {s : Scanner} (hlen : maxScanTokenSize < B.length)
    (hr : r.Stall B) (hrun : r.running = true)
    (hd : s.data = r.sc.data) (he : s.err = none) (hs : s.start = 0)
    (hfit : s.start + s.data.length ≤ s.bufLen) (hcap : s.bufLen ≤ maxScanTokenSize) :
    (r.fill s).Stall B := by
  have hi := fill_inv hr.inv hrun hd he hfit hcap
  obtain ⟨_, _, hdc, hout⟩ := hr.live hrun
  have hdata : (r.fill s).sc.data = (r.fill s).client := by
    simp only [Relay.fill]; rw [hd, hdc]
  have hshort : (r.fill s).client.length ≤ maxScanTokenSize := by
    have h1 := hi.fits
    have h2 := hi.cap
    rw [hdata] at h1; omega
  have hrest : (r.fill s).up.rest ≠ [] := by
    intro h
    have h1 := congrArg List.length hi.forwarded
    rw [h] at h1
    simp only [List.append_nil] at h1
    omega
  have hflag := read_not_eof r.up (s.bufLen - (s.start + s.data.length)) hrest
  refine ⟨hi, hshort, ?_, ?_⟩
  · intro _
    refine ⟨hs, ?_, hdata, hout⟩
    simp only [Relay.fill, hflag, Bool.false_eq_true, if_false]; exact he
  · intro h; simp [Relay.fill, hrun] at h

theorem step_stall (u : Bytes → Option (List Choice)) {B : Bytes} {r : Relay}
    (hlen : maxScanTokenSize < B.length) (hnl : 10 ∉ B.take maxScanTokenSize)
    (hr : r.Stall B) : (r.step u).Stall B := by
  by_cases hrun : r.running = true
  · obtain ⟨hs0, he0, hdc, hout⟩ := hr.live hrun
    have hdata : 10 ∉ r.sc.data := by
      intro h
      apply hnl
      have hp : r.client <+: B := ⟨_, hr.inv.forwarded⟩
      have : r.client <+: B.take maxScanTokenSize := by
        rw [List.prefix_take_iff]; exact ⟨hp, hr.short⟩
      rw [hdc] at h
      exact this.subset h
    have hsh : r.sc.shift.start = 0 := by have := shift_start_le r.sc; omega
    apply step_cases u r (Relay.Stall B) hrun
    · intro adv line ht
      exact absurd (token_some_newline ht he0) hdata
    · intro _ he; simp [he0] at he
    · intro ht he hf hb
      have hi := step_inv u hr.inv
      refine ⟨?_, hr.short, ?_, ?_⟩
      · have hi := step_inv u hr.inv
        have hst : r.step u = r.finish { r.sc.shift with err := some ScanErr.tooLong } := by
          apply step_cases u r (fun x => x = r.finish { r.sc.shift with err := some ScanErr.tooLong }) hrun
          · intro adv line ht
            exact absurd (token_some_newline ht he0) hdata
          · intro _ he; simp [he0] at he
          · intros; rfl
          · intro _ _ _ hb'; exact absurd hb hb'
          · intro _ _ hf'; exact absurd hf hf'
        rw [← hst]; exact hi
      · intro h; simp [Relay.finish] at h
      · intro _; simp [Relay.finish, hout]
    · intro ht he hf hb
      have hcap := hr.inv.cap
      rw [shift_data, shift_bufLen] at hf
      rw [shift_bufLen] at hb
      apply fill_stall hlen hr hrun
      · simp [Scanner.grow, shift_data]
      · simp [Scanner.grow, shift_err, he]
      · simp [Scanner.grow]
      · simp only [Scanner.grow, shift_data, shift_bufLen, startBufSize, maxScanTokenSize] at *
        split <;> omega
      · simp [Scanner.grow]
    · intro ht he hf
      apply fill_stall hlen hr hrun (shift_data _) (by rw [shift_err]; exact he) hsh
      · have := hr.inv.fits
        rw [shift_data, shift_bufLen, hsh]; omega
      · rw [shift_bufLen]; exact hr.inv.cap
  · have hrun' : r.running = false := by simpa using hrun
    rw [step_stopped u hrun']; exact hr

theorem run_stall (u : Bytes → Option (List Choice)) {B : Bytes} (n : Nat) {r : Relay}
    (hlen : maxScanTokenSize < B.length) (hnl : 10 ∉ B.take maxScanTokenSize)
    (hr : r.Stall B) : (Relay.run u n r).Stall B := by
  induction n generalizing r with
  | zero => exact hr
  | succ n ih => exact ih (step_stall u hlen hnl hr)

/-- A body that starts with `maxScanTokenSize` bytes without a newline and
goes on after them: the scanner gives up with ErrTooLong, the client has
received at most `maxScanTokenSize` bytes, and no fragment has been printed. -/
theorem handle_long_line (u : Bytes → Option (List Choice)) (B : Bytes)
    (sched : List (Nat × Bool)) (hlen : maxScanTokenSize < B.length)
    (hnl : 10 ∉ B.take maxScanTokenSize) :
    (handleStreamingResponse u B sched).sc.err = some ScanErr.tooLong ∧
    (handleStreamingResponse u B sched).client.length ≤ maxScanTokenSize ∧
    (handleStreamingResponse u B sched).out = str "- - -\n" ++ str "\n\n" := by
  have hs : (handleStreamingResponse u B sched).Stall B :=
    run_stall u _ hlen hnl (init_stall B sched)
  have hd := hs.dead (handle_stopped u B sched)
  exact ⟨hd.1, hs.short, hd.2⟩

theorem token_cases {s : Scanner} {adv : Nat} {line : Bytes} (h : s.token = (adv, some line)) :
    (∃ i, indexByte s.data 10 = some i ∧ adv = i + 1 ∧ line = dropCR (s.data.take i)) ∨
    (10 ∉ s.data ∧ s.data ≠ [] ∧ s.err.isSome = true ∧ adv = s.data.length ∧
      line = dropCR s.data) := by
  unfold Scanner.token at h
  split at h
  · unfold scanLines at h
    split at h
    · simp at h
    · rename_i hne
      cases hi : indexByte s.data 10 with
      | some i =>
        left
        simp only [hi, Prod.mk.injEq, Option.some.injEq] at h
        exact ⟨i, rfl, h.1.symm, h.2.symm⟩
      | none =>
        right
        simp only [hi] at h
        split at h
        · rename_i he
          simp only [Prod.mk.injEq, Option.some.injEq] at h
          simp only [he, Bool.true_and, List.isEmpty_iff] at hne
          exact ⟨indexByte_eq_none.mp hi, hne, he, h.1.symm, h.2.symm⟩
        · simp at h
  · simp at h

theorem first_sep_unique (sep : Nat) {a x f y : Bytes} (ha : sep ∉ a) (hf : sep ∉ f)
    (h : a ++ sep :: x = f ++ sep :: y) : a = f ∧ x = y := by
  induction a generalizing f with
  | nil =>
    cases f with
    | nil => simpa using h
    | cons c f' =>
      simp only [List.nil_append, List.cons_append, List.cons.injEq] at h
      exact absurd h.1.symm (fun hc => hf (by simp [hc]))
  | cons b a' ih =>
    cases f with
    | nil =>
      simp only [List.nil_append, List.cons_append, List.cons.injEq] at h
      exact absurd h.1 (fun hc => ha (by simp [hc]))
    | cons c f' =>
      simp only [List.cons_append, List.cons.injEq] at h
      have ha' : sep ∉ a' := fun hc => ha (by simp [hc])
      have hf' : sep ∉ f' := fun hc => hf (by simp [hc])
      obtain ⟨h1, h2⟩ := ih ha' hf' h.2
      exact ⟨by rw [h.1, h1], h2⟩

theorem newline_free_prefix_length {d r f y : Bytes} (hd : 10 ∉ d)
    (h : d ++ r = f ++ 10 :: y) : d.length ≤ f.length := by
  induction d generalizing f with
  | nil => simp
  | cons b d' ih =>
    cases f with
    | nil =>
      simp only [List.nil_append, List.cons_append, List.cons.injEq] at h
      exact absurd h.1 (fun hc => hd (by simp [hc]))
    | cons c f' =>
      simp only [List.cons_append, List.cons.injEq] at h
      have hd' : 10 ∉ d' := fun hc => hd (by simp [hc])
      have := ih hd' h.2
      simp only [List.length_cons]; omega

theorem joinFrames_cons (f : Bytes) (t : List Bytes) :
    joinFrames (f :: t) = f ++ 10 :: joinFrames t := by
  simp [joinFrames]

theorem frameFragments_append (u : Bytes → Option (List Choice)) (a b : List Bytes) :
    frameFragments u (a ++ b) = frameFragments u a ++ frameFragments u b := by
  simp [frameFragments]

theorem init_framed (u : Bytes → Option (List Choice)) (frames : List Bytes)
    (sched : List (Nat × Bool)) : (Relay.init (joinFrames frames) sched).Framed u frames := by
  refine ⟨init_inv _ sched, [], frames, rfl, by simp [Relay.init], ?_, ?_⟩
  · intro _; simp [Relay.init, frameFragments]
  · intro h; simp [Relay.init] at h

theorem fill_framed {u : Bytes → Option (List Choice)} {frames : List Bytes} {r : Relay}
    {s : Scanner} (hr : r.Framed u frames) (hrun : r.running = true)
    (hd : s.data = r.sc.data) (he : s.err = none)
    (hfit : s.start + s.data.length ≤ s.bufLen) (hcap : s.bufLen ≤ maxScanTokenSize) :
    (r.fill s).Framed u frames := by
  obtain ⟨done, todo, hfr, hdata, hlive, _⟩ := hr.parts
  refine ⟨fill_inv hr.inv hrun hd he hfit hcap, done, todo, hfr, ?_, ?_, ?_⟩
  · simp only [Relay.fill, List.append_assoc]
    rw [read_append, hd]; exact hdata
  · intro _; exact hlive hrun
  · intro h; simp [Relay.fill, hrun] at h

theorem step_framed (u : Bytes → Option (List Choice)) {frames : List Bytes} {r : Relay}
    (hnl : ∀ f ∈ frames, 10 ∉ f) (hlen : ∀ f ∈ frames, f.length < maxScanTokenSize)
    (hr : r.Framed u frames) : (r.step u).Framed u frames := by
  by_cases hrun : r.running = true
  · obtain ⟨done, todo, hfr, hdata, hlive, _⟩ := hr.parts
    have hout := hlive hrun
    have hnext := step_inv u hr.inv
    have herr : r.sc.err.isSome = true → r.up.rest = [] := by
      intro h
      cases he : r.sc.err with
      | none => simp [he] at h
      | some e =>
        cases e with
        | eof => exact hr.inv.eof he
        | tooLong => have := (hr.inv.long he).1; rw [hrun] at this; cases this
    revert hnext
    apply step_cases u r (fun x => x.Inv (joinFrames frames) → x.Framed u frames) hrun
    · intro adv line ht hnext
      rcases token_cases ht with ⟨i, hi, rfl, rfl⟩ | ⟨hno, hne, he, rfl, rfl⟩
      · obtain ⟨_, hsplit, hni⟩ := indexByte_some hi
        cases todo with
        | nil =>
          simp only [joinFrames, List.map_nil, List.flatten_nil, List.append_eq_nil] at hdata
          rw [hdata.1] at hsplit; simp at hsplit
        | cons f t =>
          have hf : f ∈ frames := by rw [hfr]; simp
          rw [joinFrames_cons, hsplit, List.append_assoc, List.cons_append] at hdata
          obtain ⟨h1, h2⟩ := first_sep_unique 10 hni (hnl f hf) hdata
          refine ⟨hnext, done ++ [f], t, by rw [hfr]; simp, h2, ?_, ?_⟩
          · intro _
            simp only [hout, frameFragments_append, List.append_assoc, h1]
            simp [frameFragments]
          · intro h; simp [hrun] at h
      · have hrest := herr he
        rw [hrest, List.append_nil] at hdata
        cases todo with
        | nil => simp [joinFrames] at hdata; exact absurd hdata hne
        | cons f t =>
          rw [joinFrames_cons] at hdata
          exact absurd (by rw [hdata]; simp) hno
    · intro ht he hnext
      have hd := token_none_eof ht he
      have hrest := herr he
      rw [hd, hrest] at hdata
      have htodo : todo = [] := by
        cases todo with
        | nil => rfl
        | cons f t => rw [joinFrames_cons] at hdata; simp at hdata
      refine ⟨hnext, done, todo, hfr, ?_, ?_, ?_⟩
      · simp [Relay.finish, hrest, htodo, joinFrames]
      · intro h; simp [Relay.finish] at h
      · intro _
        have hdone : frames = done := by rw [hfr, htodo]; simp
        refine ⟨?_, ?_⟩
        · cases he' : r.sc.err with
          | none => simp [he'] at he
          | some e =>
            cases e with
            | eof => simp [Relay.finish, he']
            | tooLong => have := (hr.inv.long he').1; rw [hrun] at this; cases this
        · simp [Relay.finish, hout, hdone]
    · intro ht he hf hb hnext
      have hl := (hnext.long rfl).2
      simp only [Relay.finish, shift_data] at hl
      have hno := token_none_no_newline ht he
      cases todo with
      | nil =>
        simp only [joinFrames, List.map_nil, List.flatten_nil, List.append_eq_nil] at hdata
        rw [hdata.1] at hl; simp [maxScanTokenSize] at hl
      | cons f t =>
        have hf : f ∈ frames := by rw [hfr]; simp
        rw [joinFrames_cons] at hdata
        have := newline_free_prefix_length hno hdata
        have := hlen f hf
        omega
    · intro ht he hf hb _
      have hcap := hr.inv.cap
      rw [shift_data, shift_bufLen] at hf
      rw [shift_bufLen] at hb
      apply fill_framed hr hrun
      · simp [Scanner.grow, shift_data]
      · simp [Scanner.grow, shift_err, he]
      · simp only [Scanner.grow, shift_data, shift_bufLen, startBufSize, maxScanTokenSize] at *
        split <;> omega
      · simp [Scanner.grow]
    · intro ht he hf _
      apply fill_framed hr hrun (shift_data _) (by rw [shift_err]; exact he)
      · have := shift_start_le r.sc
        have := hr.inv.fits
        rw [shift_data, shift_bufLen]; omega
      · rw [shift_bufLen]; exact hr.inv.cap
  · have hrun' : r.running = false := by simpa using hrun
    rw [step_stopped u hrun']; exact hr

theorem run_framed (u : Bytes → Option (List Choice)) {frames : List Bytes} (n : Nat)
    {r : Relay} (hnl : ∀ f ∈ frames, 10 ∉ f) (hlen : ∀ f ∈ frames, f.length < maxScanTokenSize)
    (hr : r.Framed u frames) : (Relay.run u n r).Framed u frames := by
  induction n generalizing r with
  | zero => exact hr
  | succ n ih => exact ih (step_framed u hnl hlen hr)

/-- Ordering for frames below the scanner's limit: a stream of
newline-terminated frames, each shorter than `maxScanTokenSize`, is consumed
to end-of-stream, forwarded whole, and the fragments of its frames are
printed in stream order between the opening and closing framing. -/
theorem handle_frames (u : Bytes → Option (List Choice)) (frames : List Bytes)
    (sched : List (Nat × Bool)) (hnl : ∀ f ∈ frames, 10 ∉ f)
    (hlen : ∀ f ∈ frames, f.length < maxScanTokenSize) :
    (handleStreamingResponse u (joinFrames frames) sched).out =
      str "- - -\n" ++ frameFragments u frames ++ str "\n\n" ∧
    (handleStreamingResponse u (joinFrames frames) sched).client = joinFrames frames ∧
    (handleStreamingResponse u (joinFrames frames) sched).sc.err = some ScanErr.eof := by
  have hf : (handleStreamingResponse u (joinFrames frames) sched).Framed u frames :=
    run_framed u _ hnl hlen (init_framed u frames sched)
  obtain ⟨done, todo, _, _, _, hdead⟩ := hf.parts
  obtain ⟨he, hout⟩ := hdead (handle_stopped u _ sched)
  refine ⟨hout, ?_, he⟩
  have := hf.inv.forwarded
  rw [hf.inv.eof he, List.append_nil] at this
  exact this

theorem str_data_brace : str "data: \x7b" = [100, 97, 116, 97, 58, 32, 123] := by decide

theorem str_data : str "data: " = [100, 97, 116, 97, 58, 32] := by decide

theorem recognised_brace {J : Bytes} (h : J.head? = some 123) : recognised J = true := by
  cases J with
  | nil => simp at h
  | cons a t => simp at h; simp [recognised, h]

theorem jsonLine_brace {J : Bytes} (h : J.head? = some 123) : jsonLine J = J := by
  cases J with
  | nil => simp at h
  | cons a t => simp at h; simp [jsonLine, str_data, hasPrefix, h]

theorem recognised_data {J : Bytes} (h : J.head? = some 123) :
    recognised (str "data: " ++ J) = true := by
  cases J with
  | nil => simp at h
  | cons a t => simp at h; simp [recognised, str_data, str_data_brace, hasPrefix, h]

theorem jsonLine_data (J : Bytes) : jsonLine (str "data: " ++ J) = J := by
  simp [jsonLine, str_data, hasPrefix]

/-- C2: extraction precedence.  For a recognised line whose payload decodes
with a non-empty `choices`, what is printed depends on `choices[0]` alone:
its `delta.content` when that is non-empty, otherwise its `message.content`
when that is non-empty, otherwise nothing. -/
theorem extraction_precedence (unmarshal : Bytes → Option (List Choice)) (line : Bytes)
    (c : Choice) (cs : List Choice) (hrec : recognised line = true)
    (hparse : unmarshal (jsonLine line) = some (c :: cs)) :
    lineFragment unmarshal line =
      if c.delta ≠ [] then some c.delta
      else if c.message ≠ [] then some c.message
      else none := by
  unfold lineFragment
  rw [if_pos hrec, hparse]
  by_cases hd : c.delta = []
  · by_cases hm : c.message = [] <;> simp [hd, hm]
  · simp [hd]

theorem extraction_precedence_witness :
    recognised (bothFrame "X" "Y") = true ∧
    jsonUnmarshal (jsonLine (bothFrame "X" "Y")) =
      some [{ delta := str "X", message := str "Y" }] ∧
    lineFragment jsonUnmarshal
      (bothFrame "X" "Y") =
      some (str "X") :=
  ⟨by decide, by decide,
    extraction_precedence jsonUnmarshal _ { delta := str "X", message := str "Y" } [] (by decide)
      (by decide)⟩

/-- C3: format recognition.  For a line `J` that begins with `{`, both `J`
and `data: ` followed by `J` are recognised, the same payload `J` is handed to
the decoder, and the same fragment is printed; the SSE line and the bare line
with `delta.content = "hi"` both yield `hi`. -/
theorem format_recognition (unmarshal : Bytes → Option (List Choice)) (J : Bytes)
    (hJ : J.head? = some 123) :
    recognised J = true ∧ recognised (str "data: " ++ J) = true ∧
    jsonLine (str "data: " ++ J) = jsonLine J ∧
    lineFragment unmarshal (str "data: " ++ J) = lineFragment unmarshal J ∧
    lineFragment jsonUnmarshal (sseFrame "hi") =
      some (str "hi") ∧
    lineFragment jsonUnmarshal (deltaFrame "hi") =
      some (str "hi") := by
  refine ⟨recognised_brace hJ, recognised_data hJ, ?_, ?_, by decide, by decide⟩
  · rw [jsonLine_data, jsonLine_brace hJ]
  · unfold lineFragment
    rw [recognised_brace hJ, recognised_data hJ, jsonLine_data, jsonLine_brace hJ]

theorem format_recognition_witness :
    (deltaFrame "hi").head? = some 123 ∧
    lineFragment jsonUnmarshal (str "data: " ++ deltaFrame "hi") =
      lineFragment jsonUnmarshal (deltaFrame "hi") :=
  ⟨by decide,
    (format_recognition jsonUnmarshal (deltaFrame "hi")
      (by decide)).2.2.2.1⟩

/-- Noise lines print nothing: a line that is empty, is `data: [DONE]`, or
starts with neither `{` nor `data: {`, and a recognised line whose payload
does not decode or decodes to no choices. -/
theorem noise_line (unmarshal : Bytes → Option (List Choice)) (line : Bytes)
    (h : recognised line = false ∨ unmarshal (jsonLine line) = none ∨
      unmarshal (jsonLine line) = some []) :
    lineFragment unmarshal line = none := by
  unfold lineFragment
  rcases h with h | h | h
  · simp [h]
  · split
    · rw [h]
    · rfl
  · split
    · rw [h]
    · rfl

theorem noise_examples :
    recognised [] = false ∧ recognised (str "data: [DONE]") = false ∧
    recognised (str ": keep-alive") = false := by decide

theorem mem_lit (s x : Bytes) : x ∈ (lit s).matches' ↔ x = s := by
  induction s generalizing x with
  | nil => simp [lit, Language.mem_one]
  | cons c s ih =>
    have : lit (c :: s) = char c * lit s := rfl
    rw [this, matches'_mul, Language.mem_mul]
    constructor
    · rintro ⟨a, ha, b, hb, rfl⟩
      rw [matches'_char] at ha
      rw [(ih b).mp hb, Set.mem_singleton_iff.mp ha]; rfl
    · rintro rfl
      exact ⟨[c], by rw [matches'_char]; rfl, s, (ih s).mpr rfl, rfl⟩

theorem mem_cls (cs x : Bytes) : x ∈ (cls cs).matches' ↔ ∃ c ∈ cs, x = [c] := by
  induction cs with
  | nil => simp [cls]
  | cons c cs ih =>
    have : cls (c :: cs) = char c + cls cs := rfl
    rw [this, matches'_add, Language.mem_add, ih, matches'_char]
    constructor
    · rintro (h | ⟨d, hd, rfl⟩)
      · exact ⟨c, by simp, h⟩
      · exact ⟨d, by simp [hd], rfl⟩
    · rintro ⟨d, hd, rfl⟩
      rcases List.mem_cons.mp hd with rfl | h
      · left; rfl
      · right; exact ⟨d, h, rfl⟩

theorem mem_plus_cls (cs x : Bytes) :
    x ∈ (plusRe (cls cs)).matches' ↔ x ≠ [] ∧ ∀ c ∈ x, c ∈ cs := by
  unfold plusRe
  rw [matches'_mul, matches'_star, Language.mem_mul]
  constructor
  · rintro ⟨a, ha, b, hb, rfl⟩
    obtain ⟨c, hc, rfl⟩ := (mem_cls cs a).mp ha
    obtain ⟨L, rfl, hL⟩ := Language.mem_kstar.mp hb
    refine ⟨by simp, ?_⟩
    intro d hd
    simp only [List.singleton_append, List.mem_cons, List.mem_flatten] at hd
    rcases hd with rfl | ⟨y, hy, hdy⟩
    · exact hc
    · obtain ⟨e, he, rfl⟩ := (mem_cls cs y).mp (hL y hy)
      simp at hdy; rw [hdy]; exact he
  · rintro ⟨hne, hall⟩
    cases x with
    | nil => exact absurd rfl hne
    | cons c t =>
      refine ⟨[c], (mem_cls cs [c]).mpr ⟨c, hall c (by simp), rfl⟩, t, ?_, rfl⟩
      rw [Language.mem_kstar]
      refine ⟨t.map fun d => [d], ?_, ?_⟩
      · clear hall hne
        induction t with
        | nil => rfl
        | cons d t ih => simp [← ih]
      · intro y hy
        obtain ⟨d, hd, rfl⟩ := List.mem_map.mp hy
        exact (mem_cls cs [d]).mpr ⟨d, hall d (by simp [hd]), rfl⟩

theorem mem_hostClass (c : Nat) :
    c ∈ hostClass ↔ (97 ≤ c ∧ c ≤ 122) ∨ (65 ≤ c ∧ c ≤ 90) ∨ (48 ≤ c ∧ c ≤ 57) ∨ c = 46 ∨ c = 45 := by
  simp only [hostClass, byteRange, List.mem_append, List.mem_map, List.mem_range, List.mem_cons,
    List.mem_singleton, List.not_mem_nil, or_false]
  constructor
  · rintro (((⟨a, ha, rfl⟩ | ⟨a, ha, rfl⟩) | ⟨a, ha, rfl⟩) | h | h) <;> omega
  · rintro (h | h | h | h | h)
    · exact Or.inl (Or.inl (Or.inl ⟨c - 97, by omega, by omega⟩))
    · exact Or.inl (Or.inl (Or.inr ⟨c - 65, by omega, by omega⟩))
    · exact Or.inl (Or.inr ⟨c - 48, by omega, by omega⟩)
    · exact Or.inr (Or.inl h)
    · exact Or.inr (Or.inr h)

theorem mem_digitClass (c : Nat) : c ∈ digitClass ↔ 48 ≤ c ∧ c ≤ 57 := by
  simp only [digitClass, byteRange, List.mem_map, List.mem_range]
  constructor
  · rintro ⟨a, ha, rfl⟩; omega
  · intro h; exact ⟨c - 48, by omega, by omega⟩

theorem targetRegex_iff (t : Bytes) :
    matchString targetRegex t = true ↔
      ∃ scheme host digits, t = scheme ++ host ++ 58 :: digits ∧ WellFormed scheme host digits := by
  unfold matchString
  rw [rmatch_iff_matches']
  unfold targetRegex optRe
  simp only [matches'_mul, matches'_add, matches'_epsilon, matches'_char]
  constructor
  · intro h
    obtain ⟨a5, h5, dg, hdg, rfl⟩ := Language.mem_mul.mp h
    obtain ⟨a4, h4, col, hcol, rfl⟩ := Language.mem_mul.mp h5
    obtain ⟨a3, h3, host, hhost, rfl⟩ := Language.mem_mul.mp h4
    obtain ⟨a2, h2, sl, hsl, rfl⟩ := Language.mem_mul.mp h3
    obtain ⟨a1, h1, s, hs, rfl⟩ := Language.mem_mul.mp h2
    have e1 := (mem_lit _ _).mp h1
    have e3 := (mem_lit _ _).mp hsl
    have ecol : col = [58] := hcol
    obtain ⟨hh1, hh2⟩ := (mem_plus_cls _ _).mp hhost
    obtain ⟨hd1, hd2⟩ := (mem_plus_cls _ _).mp hdg
    have hd3 : ∀ c ∈ dg, 48 ≤ c ∧ c ≤ 57 := fun c hc => (mem_digitClass c).mp (hd2 c hc)
    subst e1 e3 ecol
    rcases (Language.mem_add _ _ _).mp hs with hs | hs
    · have es : s = [115] := hs
      subst es
      exact ⟨str "https://", host, dg, by simp [str], Or.inr rfl, hh1, hh2, hd1, hd3⟩
    · have es : s = [] := hs
      subst es
      exact ⟨str "http://", host, dg, by simp [str], Or.inl rfl, hh1, hh2, hd1, hd3⟩
  · rintro ⟨scheme, host, digits, rfl, hs, hh1, hh2, hd1, hd2⟩
    have hdg : digits ∈ (plusRe (cls digitClass)).matches' :=
      (mem_plus_cls _ _).mpr ⟨hd1, fun c hc => (mem_digitClass c).mpr (hd2 c hc)⟩
    have hhost : host ∈ (plusRe (cls hostClass)).matches' := (mem_plus_cls _ _).mpr ⟨hh1, hh2⟩
    refine Language.mem_mul.mpr ⟨scheme ++ host ++ [58], ?_, digits, hdg, by simp⟩
    refine Language.mem_mul.mpr ⟨scheme ++ host, ?_, [58], rfl, rfl⟩
    refine Language.mem_mul.mpr ⟨scheme, ?_, host, hhost, rfl⟩
    rcases hs with rfl | rfl
    · refine Language.mem_mul.mpr ⟨str "http", ?_, str "://", (mem_lit _ _).mpr rfl, by decide⟩
      exact Language.mem_mul.mpr ⟨str "http", (mem_lit _ _).mpr rfl, [],
        (Language.mem_add _ _ _).mpr (Or.inr rfl), by simp⟩
    · refine Language.mem_mul.mpr ⟨str "https", ?_, str "://", (mem_lit _ _).mpr rfl, by decide⟩
      exact Language.mem_mul.mpr ⟨str "http", (mem_lit _ _).mpr rfl, [115],
        (Language.mem_add _ _ _).mpr (Or.inl rfl), by decide⟩

theorem hasPrefix_iff (s p : Bytes) : hasPrefix s p = true ↔ ∃ t, s = p ++ t := by
  induction p generalizing s with
  | nil => simp [hasPrefix]
  | cons b p ih =>
    cases s with
    | nil => simp [hasPrefix]
    | cons a s =>
      simp only [hasPrefix, Bool.and_eq_true, beq_iff_eq, ih, List.cons_append, List.cons.injEq]
      constructor
      · rintro ⟨rfl, t, rfl⟩; exact ⟨t, rfl, rfl⟩
      · rintro ⟨t, rfl, rfl⟩; exact ⟨rfl, t, rfl⟩

theorem trimPrefix_append (p s : Bytes) : trimPrefix (p ++ s) p = s := by
  unfold trimPrefix
  rw [if_pos ((hasPrefix_iff _ _).mpr ⟨s, rfl⟩)]
  simp

theorem trimPrefix_of_not (s p : Bytes) (h : ¬ ∃ t, s = p ++ t) : trimPrefix s p = s := by
  unfold trimPrefix
  rw [if_neg (fun hp => h ((hasPrefix_iff _ _).mp hp))]

theorem host_no_colon {host : Bytes} (h : ∀ c ∈ host, c ∈ hostClass) : 58 ∉ host := by
  intro hc
  have := (mem_hostClass 58).mp (h 58 hc)
  omega

theorem digits_no_colon {digits : Bytes} (h : ∀ c ∈ digits, 48 ≤ c ∧ c ≤ 57) : 58 ∉ digits := by
  intro hc
  have := h 58 hc
  omega

theorem proxyHost_wellFormed {scheme host digits : Bytes} (h : WellFormed scheme host digits) :
    proxyHost (scheme ++ host ++ 58 :: digits) = host ++ 58 :: digits := by
  obtain ⟨hs, hh1, hh2, hd1, hd2⟩ := h
  unfold proxyHost
  rcases hs with rfl | rfl
  · rw [List.append_assoc, trimPrefix_append]
    apply trimPrefix_of_not
    rintro ⟨t, ht⟩
    have e : str "https://" ++ t = [104, 116, 116, 112, 115] ++ 58 :: (47 :: 47 :: t) := by
      simp [str]
    rw [e] at ht
    obtain ⟨_, h2⟩ := first_sep_unique 58 (host_no_colon hh2) (by decide) ht
    have := hd2 47 (by rw [h2]; simp)
    omega
  · have hin : trimPrefix (str "https://" ++ (host ++ 58 :: digits)) (str "http://") =
        str "https://" ++ (host ++ 58 :: digits) := by
      apply trimPrefix_of_not
      rintro ⟨t, ht⟩
      have e1 : str "https://" ++ (host ++ 58 :: digits) =
          [104, 116, 116, 112, 115] ++ 58 :: (47 :: 47 :: (host ++ 58 :: digits)) := by
        simp [str]
      have e2 : str "http://" ++ t = [104, 116, 116, 112] ++ 58 :: (47 :: 47 :: t) := by
        simp [str]
      rw [e1, e2] at ht
      have := (first_sep_unique 58 (by decide) (by decide) ht).1
      simp at this
    rw [List.append_assoc, hin, trimPrefix_append]

/-- C7: Host rewriting.  For a target address accepted by the startup
pattern, the Host of the forwarded request is the bare authority
`host:port`: the target address is `http://` or `https://` followed by
exactly that Host. -/
theorem host_rewriting (targetAddr : Bytes) (h : matchString targetRegex targetAddr = true) :
    (targetAddr = str "http://" ++ proxyHost targetAddr ∨
      targetAddr = str "https://" ++ proxyHost targetAddr) ∧
    ∃ host port, proxyHost targetAddr = host ++ 58 :: port ∧
      host ≠ [] ∧ (∀ c ∈ host, c ∈ hostClass) ∧ port ≠ [] ∧ (∀ c ∈ port, 48 ≤ c ∧ c ≤ 57) := by
  obtain ⟨scheme, host, digits, rfl, hw⟩ := (targetRegex_iff targetAddr).mp h
  rw [proxyHost_wellFormed hw]
  refine ⟨?_, host, digits, rfl, hw.2⟩
  rcases hw.1 with rfl | rfl
  · left; simp
  · right; simp

theorem host_rewriting_witness :
    matchString targetRegex (str "http://localhost:11434") = true ∧
    proxyHost (str "http://localhost:11434") = str "localhost:11434" ∧
    (str "http://localhost:11434" = str "http://" ++ proxyHost (str "http://localhost:11434") ∨
      str "http://localhost:11434" = str "https://" ++ proxyHost (str "http://localhost:11434")) :=
  ⟨by decide, by decide, (host_rewriting (str "http://localhost:11434") (by decide)).1⟩

theorem decimalValue_cons (c : Nat) (ds : Bytes) :
    decimalValue (c :: ds) = (c - 48) * 10 ^ ds.length + decimalValue ds := by
  simp [decimalValue, Nat.ofDigits_append]
  ring

theorem foldl_digits_none (ds : Bytes) :
    ds.foldl (fun acc ch => acc.bind fun n =>
      if isDigit ch then some (n * 10 + (ch - 48)) else none) (none : Option Nat) = none := by
  induction ds with
  | nil => rfl
  | cons c t ih => simpa using ih

theorem foldl_digits (ds : Bytes) (a : Nat) :
    ds.foldl (fun acc ch => acc.bind fun n =>
      if isDigit ch then some (n * 10 + (ch - 48)) else none) (some a) =
    if ∀ c ∈ ds, 48 ≤ c ∧ c ≤ 57 then some (a * 10 ^ ds.length + decimalValue ds) else none := by
  induction ds generalizing a with
  | nil => simp [decimalValue]
  | cons c t ih =>
    simp only [List.foldl_cons, Option.some_bind]
    by_cases hc : 48 ≤ c ∧ c ≤ 57
    · have hd : isDigit c = true := by simp [isDigit, hc]
      rw [hd, if_pos rfl, ih, decimalValue_cons]
      by_cases ht : ∀ c ∈ t, 48 ≤ c ∧ c ≤ 57
      · have : ∀ x ∈ c :: t, 48 ≤ x ∧ x ≤ 57 := by
          intro x hx; rcases List.mem_cons.mp hx with rfl | h
          · exact hc
          · exact ht x h
        rw [if_pos ht, if_pos this]
        congr 1
        simp only [List.length_cons, pow_succ]
        ring
      · have : ¬ ∀ x ∈ c :: t, 48 ≤ x ∧ x ≤ 57 := fun h => ht fun x hx => h x (by simp [hx])
        rw [if_neg ht, if_neg this]
    · have hd : isDigit c = false := by
        simp only [isDigit, Bool.and_eq_false_iff, decide_eq_false_iff_not]
        by_cases h : 48 ≤ c
        · right; exact fun h2 => hc ⟨h, h2⟩
        · left; exact h
      have : ¬ ∀ x ∈ c :: t, 48 ≤ x ∧ x ≤ 57 := fun h => hc (h c (by simp))
      rw [hd, if_neg this]
      simp only [Bool.false_eq_true, if_false]
      exact foldl_digits_none t

theorem digitsValue_eq (ds : Bytes) :
    digitsValue ds =
      if ds ≠ [] ∧ ∀ c ∈ ds, 48 ≤ c ∧ c ≤ 57 then some (decimalValue ds) else none := by
  unfold digitsValue
  by_cases h : ds = []
  · simp [h]
  · rw [if_neg h, foldl_digits]
    simp [h]

theorem atoi_digits {ds : Bytes} (hne : ds ≠ []) (hd : ∀ c ∈ ds, 48 ≤ c ∧ c ≤ 57) :
    atoi ds = if decimalValue ds ≤ 2 ^ 63 - 1 then some (decimalValue ds : Int) else none := by
  cases ds with
  | nil => exact absurd rfl hne
  | cons c t =>
    have hc := hd c (by simp)
    have h45 : c ≠ 45 := by omega
    have h43 : c ≠ 43 := by omega
    unfold atoi
    simp only [List.head?_cons, Option.some.injEq, h45, h43, or_self, if_false]
    rw [digitsValue_eq, if_pos ⟨hne, hd⟩]
    simp only [decide_False, Bool.false_eq_true, if_false]
    by_cases hr : decimalValue (c :: t) ≤ 2 ^ 63 - 1
    · rw [if_pos hr, if_pos]
      constructor
      · have : (0 : Int) ≤ (decimalValue (c :: t) : Int) := Int.natCast_nonneg _
        omega
      · omega
    · rw [if_neg hr, if_neg]
      intro h
      omega

theorem atoi_plus (ds : Bytes) :
    atoi (43 :: ds) =
      if ds ≠ [] ∧ (∀ c ∈ ds, 48 ≤ c ∧ c ≤ 57) ∧ decimalValue ds ≤ 2 ^ 63 - 1
      then some (decimalValue ds : Int) else none := by
  unfold atoi
  simp only [List.head?_cons, Option.some.injEq, Nat.reduceEqDiff, or_true, if_true,
    List.tail_cons, decide_False, Bool.false_eq_true, if_false]
  rw [digitsValue_eq]
  by_cases h : ds ≠ [] ∧ ∀ c ∈ ds, 48 ≤ c ∧ c ≤ 57
  · rw [if_pos h]
    dsimp only
    by_cases hr : decimalValue ds ≤ 2 ^ 63 - 1
    · have h1 : -(2 : Int) ^ 63 ≤ (decimalValue ds : Int) ∧
          (decimalValue ds : Int) ≤ (2 : Int) ^ 63 - 1 := by constructor <;> omega
      rw [if_pos h1, if_pos ⟨h.1, h.2, hr⟩]
    · have h1 : ¬ (-(2 : Int) ^ 63 ≤ (decimalValue ds : Int) ∧
          (decimalValue ds : Int) ≤ (2 : Int) ^ 63 - 1) := by intro h'; omega
      rw [if_neg h1, if_neg (fun h' => hr h'.2.2)]
  · rw [if_neg h, if_neg (fun h' => h ⟨h'.1, h'.2.1⟩)]

theorem atoi_minus (ds : Bytes) :
    atoi (45 :: ds) =
      if ds ≠ [] ∧ (∀ c ∈ ds, 48 ≤ c ∧ c ≤ 57) ∧ decimalValue ds ≤ 2 ^ 63
      then some (-(decimalValue ds : Int)) else none := by
  unfold atoi
  simp only [List.head?_cons, true_or, if_true, List.tail_cons, decide_True]
  rw [digitsValue_eq]
  by_cases h : ds ≠ [] ∧ ∀ c ∈ ds, 48 ≤ c ∧ c ≤ 57
  · rw [if_pos h]
    dsimp only
    by_cases hr : decimalValue ds ≤ 2 ^ 63
    · have h1 : -(2 : Int) ^ 63 ≤ -(decimalValue ds : Int) ∧
          -(decimalValue ds : Int) ≤ (2 : Int) ^ 63 - 1 := by constructor <;> omega
      rw [if_pos h1, if_pos ⟨h.1, h.2, hr⟩]
    · have h1 : ¬ (-(2 : Int) ^ 63 ≤ -(decimalValue ds : Int) ∧
          -(decimalValue ds : Int) ≤ (2 : Int) ^ 63 - 1) := by intro h'; omega
      rw [if_neg h1, if_neg (fun h' => hr h'.2.2)]
  · rw [if_neg h, if_neg (fun h' => h ⟨h'.1, h'.2.1⟩)]

/-- `strconv.Atoi` succeeds exactly on the decimal integer numerals whose
value is in the range of `int`, and returns that value. -/
theorem atoi_iff (d : Bytes) (n : Int) : atoi d = some n ↔ IsNumeral d n ∧ InIntRange n := by
  constructor
  · intro h
    cases d with
    | nil => simp [atoi, digitsValue] at h
    | cons c t =>
      by_cases h43 : c = 43
      · subst h43
        rw [atoi_plus] at h
        split at h
        · rename_i hc
          simp only [Option.some.injEq] at h
          subst h
          exact ⟨⟨t, hc.1, hc.2.1, Or.inr (Or.inl ⟨rfl, rfl⟩)⟩, by
            unfold InIntRange; constructor <;> omega⟩
        · cases h
      · by_cases h45 : c = 45
        · subst h45
          rw [atoi_minus] at h
          split at h
          · rename_i hc
            simp only [Option.some.injEq] at h
            subst h
            exact ⟨⟨t, hc.1, hc.2.1, Or.inr (Or.inr ⟨rfl, rfl⟩)⟩, by
              unfold InIntRange; constructor <;> omega⟩
          · cases h
        · have hds : digitsValue (c :: t) ≠ none := by
            intro hn
            unfold atoi at h
            simp only [List.head?_cons, Option.some.injEq, h45, h43, or_self, if_false] at h
            rw [hn] at h
            cases h
          rw [digitsValue_eq] at hds
          have hc : (c :: t) ≠ [] ∧ ∀ x ∈ c :: t, 48 ≤ x ∧ x ≤ 57 := by
            by_contra hc; exact hds (if_neg hc)
          rw [atoi_digits hc.1 hc.2] at h
          split at h
          · simp only [Option.some.injEq] at h
            subst h
            exact ⟨⟨c :: t, hc.1, hc.2, Or.inl ⟨rfl, rfl⟩⟩, by
              unfold InIntRange; constructor <;> omega⟩
          · cases h
  · rintro ⟨⟨ds, hne, hd, h | h | h⟩, hr⟩
    · obtain ⟨rfl, rfl⟩ := h
      rw [atoi_digits hne hd, if_pos]
      unfold InIntRange at hr; omega
    · obtain ⟨rfl, rfl⟩ := h
      rw [atoi_plus, if_pos]
      unfold InIntRange at hr
      exact ⟨hne, hd, by omega⟩
    · obtain ⟨rfl, rfl⟩ := h
      rw [atoi_minus, if_pos]
      unfold InIntRange at hr
      exact ⟨hne, hd, by omega⟩

theorem wrapInt_of_inRange {x : Int} (h : InIntRange x) : wrapInt x = x := by
  unfold InIntRange at h
  unfold wrapInt
  omega

theorem getLast?_cons_ne (a : Nat) {l : Bytes} (h : l ≠ []) :
    (a :: l).getLast? = l.getLast? := by
  cases l with
  | nil => exact absurd rfl h
  | cons b t => simp [List.getLast?_cons_cons]

theorem numeral_last {d : Bytes} {n : Int} (h : IsNumeral d n) :
    d ≠ [] ∧ d.getLast? ≠ some 107 ∧ d.getLast? ≠ some 75 := by
  obtain ⟨ds, hne, hd, h⟩ := h
  have hl : ∃ c, ds.getLast? = some c ∧ 48 ≤ c ∧ c ≤ 57 := by
    have hm := List.getLast_mem hne
    exact ⟨ds.getLast hne, List.getLast?_eq_getLast _ hne, hd _ hm⟩
  obtain ⟨c, hc, hc1, hc2⟩ := hl
  have hlast : d.getLast? = some c := by
    rcases h with h | h | h
    · rw [h.1]; exact hc
    · rw [h.1, getLast?_cons_ne _ hne]; exact hc
    · rw [h.1, getLast?_cons_ne _ hne]; exact hc
  refine ⟨?_, ?_, ?_⟩
  · intro hd0; rw [hd0] at hlast; simp at hlast
  · rw [hlast]; simp; omega
  · rw [hlast]; simp; omega

theorem get_length_eq (s : Bytes) (h : s ≠ []) :
    get_length s =
      (atoi (stem s)).map fun num =>
        wrapInt (num * if s.getLast? = some 107 ∨ s.getLast? = some 75 then 1000 else 1) := by
  unfold get_length stem
  have hl : s.length ≠ 0 := by simpa using h
  rw [if_neg hl]
  by_cases hk : s.getLast? = some 107 ∨ s.getLast? = some 75
  · simp only [hk, if_true, List.dropLast_eq_take]
    cases atoi (List.take (s.length - 1) s) <;> rfl
  · simp only [hk, if_false, List.take_length]
    cases atoi s <;> rfl

theorem stem_snoc_k (d : Bytes) : stem (d ++ [107]) = d := by simp [stem]

theorem stem_snoc_K (d : Bytes) : stem (d ++ [75]) = d := by simp [stem]

/-- C9, amended: for a decimal integer numeral `d` with value `n` in the
range of `int`, `get_length d` is `n`, and `get_length` of `d` followed by
`k` or `K` is `1000 * n` in 64-bit two's-complement arithmetic, which is
`1000 * n` itself whenever that is in the range of `int`; `get_length ""` is
`-1`; and on a non-empty string it is fatal exactly when the part before an
optional trailing `k` or `K` is not a numeral with a value in the range of
`int`. -/
theorem get_length_spec (d : Bytes) (n : Int) (hd : IsNumeral d n) (hr : InIntRange n) :
    get_length d = some n ∧
    get_length (d ++ str "k") = some (wrapInt (1000 * n)) ∧
    get_length (d ++ str "K") = some (wrapInt (1000 * n)) ∧
    (InIntRange (1000 * n) →
      get_length (d ++ str "k") = some (1000 * n) ∧ get_length (d ++ str "K") = some (1000 * n)) ∧
    get_length [] = some (-1) ∧
    (∀ s, s ≠ [] → (get_length s = none ↔ ¬ ∃ m, IsNumeral (stem s) m ∧ InIntRange m)) := by
  have ha : atoi d = some n := (atoi_iff d n).mpr ⟨hd, hr⟩
  obtain ⟨hne, hk1, hk2⟩ := numeral_last hd
  have h1 : get_length d = some n := by
    rw [get_length_eq d hne]
    have hs : stem d = d := by simp [stem, hk1, hk2]
    simp only [hs, ha, hk1, hk2, or_self, if_false, Option.map_some', mul_one]
    rw [wrapInt_of_inRange hr]
  have h2 : get_length (d ++ str "k") = some (wrapInt (1000 * n)) := by
    have e : str "k" = [107] := by decide
    rw [e, get_length_eq _ (by simp), stem_snoc_k, ha]
    simp [mul_comm]
  have h3 : get_length (d ++ str "K") = some (wrapInt (1000 * n)) := by
    have e : str "K" = [75] := by decide
    rw [e, get_length_eq _ (by simp), stem_snoc_K, ha]
    simp [mul_comm]
  refine ⟨h1, h2, h3, ?_, by decide, ?_⟩
  · intro hr2
    rw [h2, h3, wrapInt_of_inRange hr2]
    exact ⟨rfl, rfl⟩
  · intro s hs
    rw [get_length_eq s hs]
    constructor
    · intro h ⟨m, hm, hmr⟩
      rw [(atoi_iff _ m).mpr ⟨hm, hmr⟩] at h
      simp at h
    · intro h
      cases hat : atoi (stem s) with
      | none => rfl
      | some m => exact absurd ⟨m, (atoi_iff _ m).mp hat⟩ h

theorem get_length_spec_witness :
    IsNumeral (str "10") 10 ∧ InIntRange 10 ∧ get_length (str "10" ++ str "k") = some 10000 :=
  have hn : IsNumeral (str "10") 10 :=
    ⟨str "10", by decide, by decide, Or.inl ⟨rfl, by decide⟩⟩
  have hr : InIntRange 10 := by unfold InIntRange; decide
  ⟨hn, hr, ((get_length_spec (str "10") 10 hn hr).2.2.2.1 (by unfold InIntRange; decide)).1⟩

/-- C9, counterexample: `9223372036854775807` is a numeral with a value in
the range of `int`, but `get_length "9223372036854775807k"` is `-1000`, not
a thousand times that value. -/
theorem get_length_overflow :
    IsNumeral (str "9223372036854775807") 9223372036854775807 ∧
    InIntRange 9223372036854775807 ∧
    get_length (str "9223372036854775807" ++ str "k") = some (-1000) ∧
    get_length (str "9223372036854775807" ++ str "k") ≠ some (1000 * 9223372036854775807) :=
  ⟨⟨str "9223372036854775807", by decide, by decide, Or.inl ⟨rfl, by decide⟩⟩,
    by unfold InIntRange; decide, by decide, by decide⟩

theorem split_no_sep {d : Bytes} {sep : Nat} (h : sep ∉ d) : split d sep = [d] := by
  induction d with
  | nil => rfl
  | cons c t ih =>
    have hc : c ≠ sep := fun e => h (by simp [e])
    have ht : sep ∉ t := fun e => h (by simp [e])
    simp [split, hc, ih ht]

theorem split_append_sep (a d : Bytes) (sep : Nat) :
    split (a ++ sep :: d) sep = split a sep ++ split d sep := by
  induction a with
  | nil => simp [split]
  | cons c t ih =>
    by_cases hc : c = sep
    · simp [split, hc, ← ih]
    · rw [List.cons_append]
      simp only [split, hc, if_false]
      rw [ih]
      cases hs : split t sep with
      | nil => exact absurd hs (split_ne_nil _ _)
      | cons seg segs => simp

theorem split_last {a d : Bytes} {sep : Nat} (h : sep ∉ d) :
    (split (a ++ sep :: d) sep).getLast? = some d := by
  rw [split_append_sep, split_no_sep h]
  simp

/-- C8: startup validation.  The startup code goes on to construct the
relay exactly when the target address is `http://` or `https://`, a
non-empty host of letters, digits, dots and dashes, a colon and a non-empty
string of digits whose value is between 1 and 65535, and the listen port is
between 1 and 65535; in every other case it ends in one of the `log.Fatalf`
calls, as for port 0, port 65536, a port too large for `int`, a missing
scheme and a missing port. -/
theorem startup_validation (port : Int) (targetAddr : Bytes) :
    (mainStartup port targetAddr = Startup.proceed ↔
      ∃ scheme host digits, targetAddr = scheme ++ host ++ 58 :: digits ∧
        WellFormed scheme host digits ∧
        1 ≤ decimalValue digits ∧ decimalValue digits ≤ 65535 ∧ 1 ≤ port ∧ port ≤ 65535) ∧
    mainStartup 8080 (str "http://localhost:11434") = Startup.proceed ∧
    mainStartup 8080 (str "http://localhost:0") = Startup.targetPortRange ∧
    mainStartup 8080 (str "http://localhost:65536") = Startup.targetPortRange ∧
    mainStartup 8080 (str "http://localhost:99999999999999999999") = Startup.portNotNumber ∧
    mainStartup 8080 (str "localhost:11434") = Startup.invalidFormat ∧
    mainStartup 8080 (str "http://localhost") = Startup.invalidFormat ∧
    mainStartup 0 (str "http://localhost:11434") = Startup.listenPortRange ∧
    mainStartup 65536 (str "http://localhost:11434") = Startup.listenPortRange := by
  refine ⟨?_, by decide⟩
  constructor
  · intro h
    unfold mainStartup at h
    by_cases hm : matchString targetRegex targetAddr = true
    · obtain ⟨scheme, host, digits, rfl, hw⟩ := (targetRegex_iff targetAddr).mp hm
      refine ⟨scheme, host, digits, rfl, hw, ?_⟩
      simp only [hm, Bool.not_true, Bool.false_eq_true, if_false] at h
      rw [split_last (digits_no_colon hw.2.2.2.2), Option.getD_some,
        atoi_digits hw.2.2.2.1 hw.2.2.2.2] at h
      by_cases hr : decimalValue digits ≤ 2 ^ 63 - 1
      · rw [if_pos hr] at h
        dsimp only at h
        split at h
        · cases h
        · rename_i h1
          split at h
          · cases h
          · rename_i h2
            omega
      · rw [if_neg hr] at h
        cases h
    · simp [hm] at h
  · rintro ⟨scheme, host, digits, rfl, hw, h1, h2, h3, h4⟩
    have hm : matchString targetRegex (scheme ++ host ++ 58 :: digits) = true :=
      (targetRegex_iff _).mpr ⟨scheme, host, digits, rfl, hw⟩
    unfold mainStartup
    simp only [hm, Bool.not_true, Bool.false_eq_true, if_false]
    rw [split_last (digits_no_colon hw.2.2.2.2), Option.getD_some,
      atoi_digits hw.2.2.2.1 hw.2.2.2.2, if_pos (by omega)]
    dsimp only
    rw [if_neg (by omega), if_neg (by omega)]

theorem replicate_no_newline (n : Nat) (rest : Bytes) (c : Nat) (hc : c ≠ 10) :
    10 ∉ (List.replicate n c ++ rest).take n := by
  have : (List.replicate n c ++ rest).take n = List.replicate n c := by simp
  rw [this]
  intro h
  exact hc (List.eq_of_mem_replicate h).symm

theorem recognised_replicate (n c : Nat) (h1 : c ≠ 123) (h2 : c ≠ 100) :
    recognised (dropCR (List.replicate n c)) = false := by
  have hd : ∀ l : Bytes, (∀ x ∈ l, x = c) → recognised l = false := by
    intro l hl
    cases l with
    | nil => rfl
    | cons a t =>
      have ha : a = c := hl a (by simp)
      simp [recognised, str_data_brace, hasPrefix, ha, h1, h2]
  apply hd
  intro x hx
  have : x ∈ List.replicate n c := by
    unfold dropCR at hx
    split at hx
    · exact List.mem_of_mem_dropLast hx
    · exact hx
  exact List.eq_of_mem_replicate this

theorem long_first_frame (n c : Nat) (hc : c ≠ 10) (t : List Bytes) :
    n < (joinFrames (List.replicate n c :: t)).length ∧
    10 ∉ (joinFrames (List.replicate n c :: t)).take n := by
  rw [joinFrames_cons]
  refine ⟨?_, replicate_no_newline n _ c hc⟩
  rw [List.length_append, List.length_replicate, List.length_cons]
  omega

/-- C1 (the code falls short of it): the upstream body of 64 KiB + 1 bytes
`x` with no newline.  For every decoder and every chunking the scanner gives up
with ErrTooLong once its buffer has reached 64 KiB, the pipe is closed, and
the client has received at most 64 KiB, not the whole body. -/
theorem byte_fidelity_long_line (unmarshal : Bytes → Option (List Choice))
    (sched : List (Nat × Bool)) :
    (handleStreamingResponse unmarshal (List.replicate (maxScanTokenSize + 1) 120) sched).sc.err =
      some ScanErr.tooLong ∧
    (handleStreamingResponse unmarshal (List.replicate (maxScanTokenSize + 1) 120) sched).client.length ≤ maxScanTokenSize ∧
    (handleStreamingResponse unmarshal (List.replicate (maxScanTokenSize + 1) 120) sched).client ≠
      List.replicate (maxScanTokenSize + 1) 120 := by
  have h := handle_long_line unmarshal (List.replicate (maxScanTokenSize + 1) 120) sched
    (by rw [List.length_replicate]; exact Nat.lt_succ_self _)
    (fun h => absurd (List.eq_of_mem_replicate (List.mem_of_mem_take h)) (by decide))
  refine ⟨h.1, h.2.1, ?_⟩
  intro he
  have hl := h.2.1
  rw [he, List.length_replicate] at hl
  omega

/-- C5 (the code falls short of it): the stream of two newline-terminated
frames, 64 KiB of `x` and then
`{"choices":[{"delta":{"content":"hi"}}]}`.  The fragments of the frames
taken one by one are nothing and `hi`, but for every chunking the scanner
gives up on the first frame and no fragment is printed between the opening
and the closing framing. -/
theorem ordering_long_frame (sched : List (Nat × Bool)) :
    frameFragments jsonUnmarshal
      [List.replicate maxScanTokenSize 120, deltaFrame "hi"] =
      str "hi" ∧
    (handleStreamingResponse jsonUnmarshal
      (joinFrames
        [List.replicate maxScanTokenSize 120, deltaFrame "hi"])
      sched).out = str "- - -\n" ++ str "\n\n" := by
  constructor
  · have h1 : lineFragment jsonUnmarshal (dropCR (List.replicate maxScanTokenSize 120)) = none :=
      noise_line _ _ (Or.inl (recognised_replicate _ _ (by decide) (by decide)))
    have h2 : lineFragment jsonUnmarshal
        (dropCR (deltaFrame "hi")) = some (str "hi") := by
      decide
    simp [frameFragments, h1, h2]
  · exact (handle_long_line jsonUnmarshal _ sched
      (long_first_frame maxScanTokenSize 120 (by decide) _).1
      (long_first_frame maxScanTokenSize 120 (by decide) _).2).2.2

/-- C4 (the code falls short of it): the noise line of 64 KiB of spaces, which
starts with neither `{` nor `data: {`, followed by the frame
`{"choices":[{"delta":{"content":"hi"}}]}`.  The noise line by itself prints
nothing, but for every chunking it makes the scanner stop with ErrTooLong, so
the fragment `hi` of the following frame is not printed, whereas without the
noise line it is. -/
theorem noise_long_line (sched : List (Nat × Bool)) :
    lineFragment jsonUnmarshal (dropCR (List.replicate maxScanTokenSize 32)) = none ∧
    (handleStreamingResponse jsonUnmarshal
      (joinFrames
        [List.replicate maxScanTokenSize 32, deltaFrame "hi"])
      sched).sc.err = some ScanErr.tooLong ∧
    (handleStreamingResponse jsonUnmarshal
      (joinFrames
        [List.replicate maxScanTokenSize 32, deltaFrame "hi"])
      sched).out = str "- - -\n" ++ str "\n\n" ∧
    (handleStreamingResponse jsonUnmarshal
      (joinFrames [deltaFrame "hi"]) sched).out =
      str "- - -\n" ++ str "hi" ++ str "\n\n" := by
  have hlong := handle_long_line jsonUnmarshal
    (joinFrames
      [List.replicate maxScanTokenSize 32, deltaFrame "hi"])
    sched (long_first_frame maxScanTokenSize 32 (by decide) _).1
    (long_first_frame maxScanTokenSize 32 (by decide) _).2
  refine ⟨noise_line _ _ (Or.inl (recognised_replicate _ _ (by decide) (by decide))),
    hlong.1, hlong.2.2, ?_⟩
  have h := (handle_frames jsonUnmarshal [deltaFrame "hi"]
    sched (by decide) (by decide)).1
  rw [h]
  have : frameFragments jsonUnmarshal [deltaFrame "hi"] =
      str "hi" := by decide
  rw [this]

set_option maxRecDepth 100000 in
theorem tee_prefix_invariant_witness :
    (∀ l ∈ split ((joinFrames [sseFrame "Hel", str "data: [DONE]"])) 10,
      l.length < maxScanTokenSize) ∧
    (handleStreamingResponse jsonUnmarshal
      ((joinFrames [sseFrame "Hel", str "data: [DONE]"]))
      [(7, false), (1, true)]).client =
      (joinFrames [sseFrame "Hel", str "data: [DONE]"]) :=
  ⟨by decide,
    (tee_prefix_invariant jsonUnmarshal
      ((joinFrames [sseFrame "Hel", str "data: [DONE]"]))
      [(7, false), (1, true)]).2.2.1
      ((tee_prefix_invariant jsonUnmarshal
        ((joinFrames [sseFrame "Hel", str "data: [DONE]"]))
        [(7, false), (1, true)]).2.2.2.1 (by decide))⟩

set_option maxRecDepth 100000 in
/-- The scenario of three SSE lines: for every chunking the client receives
the three lines unchanged and the fragments `Hel` and `lo` are printed in
that order, nothing for `data: [DONE]`. -/
theorem ordering_scenario (sched : List (Nat × Bool)) :
    (handleStreamingResponse jsonUnmarshal
      (joinFrames [sseFrame "Hel",
        sseFrame "lo", str "data: [DONE]"])
      sched).out = str "- - -\n" ++ (str "Hel" ++ str "lo") ++ str "\n\n" ∧
    (handleStreamingResponse jsonUnmarshal
      (joinFrames [sseFrame "Hel",
        sseFrame "lo", str "data: [DONE]"])
      sched).client =
      joinFrames [sseFrame "Hel", sseFrame "lo", str "data: [DONE]"] := by
  have h := handle_frames jsonUnmarshal
    [sseFrame "Hel",
      sseFrame "lo", str "data: [DONE]"]
    sched (by decide) (by decide)
  refine ⟨?_, ?_⟩
  · rw [h.1]
    have : frameFragments jsonUnmarshal
        [sseFrame "Hel",
          sseFrame "lo", str "data: [DONE]"] =
        str "Hel" ++ str "lo" := by decide
    rw [this]
  · exact h.2.1

/-- C6, counterexample: an error body that is a JSON object without
`choices`.  The text logged is the raw body, and it is not the
`choices[0].message.content` of any decoding of the body. -/
theorem regular_response_error_body :
    jsonUnmarshalMessage (errorBody) = some [] ∧
    (handleRegularResponse jsonUnmarshalMessage (some (errorBody))).logs =
      [str "\n\n- - -\n\n" ++ errorBody] ∧
    ¬ ∃ m ms, jsonUnmarshalMessage (errorBody) = some (m :: ms) ∧
      (handleRegularResponse jsonUnmarshalMessage (some (errorBody))).logs =
        [str "\n\n- - -\n\n" ++ m] := by
  have h : jsonUnmarshalMessage (errorBody) = some [] := by decide
  refine ⟨h, by decide, ?_⟩
  rintro ⟨m, ms, hm, _⟩
  rw [h] at hm
  cases hm

/-- C6, amended: for every body read without error the client receives
exactly the body in one write, and one message is logged: the
`choices[0].message.content` of the body when it decodes as a JSON object
with a non-empty `choices` array (`delta` is not a field of the target and is
never consulted), and the raw body otherwise.  For the body
`{"choices":[{"message":{"content":"Answer"}}],"id":"x"}` the client receives
the exact body and `Answer` is logged once. -/
theorem regular_response (unmarshal : Bytes → Option (List Bytes)) (body : Bytes) :
    (handleRegularResponse unmarshal (some body)).writes = [body] ∧
    (handleRegularResponse unmarshal (some body)).logs =
      [str "\n\n- - -\n\n" ++
        match unmarshal body with
        | some (content :: _) => content
        | _ => body] ∧
    handleRegularResponse jsonUnmarshalMessage
      (some (answerBody)) =
      { logs := [str "\n\n- - -\n\n" ++ str "Answer"],
        writes := [answerBody] } ∧
    jsonUnmarshalMessage
      (bothFrame "D" "M") =
      some [str "M"] ∧
    jsonUnmarshalMessage (deltaFrame "D") = some [[]] := by
  refine ⟨rfl, ?_, by decide, by decide, by decide⟩
  unfold handleRegularResponse
  simp only
  split <;> simp_all

end LlmTools
